import Mathlib

/-!
# Verification of the linkcrawl web scraper

A shallow embedding, in Lean 4, of the core of the go-web-scraper repository
(package linkcrawl): the URL normalizer Crawler.cleanUrl, the per-page link
pipeline Crawler.ProcessResponse / startFindLinks / filteredLinks
(crawler/crawler.go), the fetcher retry loop Fetcher.worker
(fetcher/fetcher.go), the crawl pipeline of main.go (seed / cache / worker /
monitor goroutines over the shared data.Data visited map), and the alternative
Fronter.cache stage (fronter/fronter.go).

Strings are modelled as lists of characters (Str), so that every operation is
an executable structural recursion.  The parts of Go's net/url package that
cleanUrl relies on (url.Parse, URL.Hostname) are modelled faithfully for the
class of URLs this crawler manipulates: the scheme / authority / path / query /
fragment split, the scheme validity scan with lower-casing, the port validation
on the authority, and port stripping in Hostname.  Percent-decoding of the
path, userinfo splitting, and IPv6 bracket hosts are outside the model (none of
the properties below mention them); the documented behaviour on all other
inputs follows the Go source of net/url line by line.  The model reproduces the
complete 11-entry fixture table of crawler_test.go, proved below.
-/

set_option maxRecDepth 10000

/-- Strings as lists of characters. -/
abbrev Str := List Char

/-- String literal embedding. -/
def lit (s : String) : Str := s.data

/-- The whitespace characters trimmed by strings.TrimSpace (ASCII fragment). -/
def isSpaceChar (c : Char) : Bool := c == ' ' || c == '\t' || c == '\n' || c == '\r'

/-- Left half of strings.TrimSpace. -/
def trimLeft (s : Str) : Str := s.dropWhile isSpaceChar

/-- Right half of strings.TrimSpace. -/
def trimRight (s : Str) : Str := (s.reverse.dropWhile isSpaceChar).reverse

/-- strings.TrimSpace. -/
def strTrim (s : Str) : Str := trimRight (trimLeft s)

/-- strings.HasPrefix: does s start with p? -/
def strStarts : Str → Str → Bool
  | _, [] => true
  | [], _ :: _ => false
  | c :: s, p :: ps => c == p && strStarts s ps

/-- strings.Contains: does p occur as a contiguous substring of s? -/
def strContains : Str → Str → Bool
  | [], p => p.isEmpty
  | c :: t, p => strStarts (c :: t) p || strContains t p

/-- Split at the first occurrence of c: some (before, after), or none when c
does not occur. -/
def cutFirstQ (c : Char) : Str → Option (Str × Str)
  | [] => none
  | x :: t =>
    if x == c then some ([], t)
    else (cutFirstQ c t).map (fun p => (x :: p.1, p.2))

/-- strings.Cut at a single character: (before, after), with after = [] when c
does not occur. -/
def cutFirst (c : Char) (s : Str) : Str × Str :=
  (cutFirstQ c s).getD (s, [])

/-- Split the authority from the rest: (up to the first slash, from the first
slash on).  Mirrors the authority extraction of url.parse. -/
def spanHost : Str → Str × Str
  | [] => ([], [])
  | c :: t => if c == '/' then ([], c :: t) else
      let p := spanHost t
      (c :: p.1, p.2)

/-- Split at the last colon: some (before, after) or none when no colon. -/
def splitLastColon (s : Str) : Option (Str × Str) :=
  (cutFirstQ ':' s.reverse).map (fun p => (p.2.reverse, p.1.reverse))

/-- The characters allowed in a URL scheme after the first (Go getScheme). -/
def isSchemeChar (c : Char) : Bool :=
  c.isAlpha || c.isDigit || c == '+' || c == '-' || c == '.'

/-- Scan for a colon-terminated run of scheme characters (inner loop of Go
getScheme): some (scheme, rest) when the first colon terminates a run of
scheme characters, none otherwise. -/
def getSchemeCore : Str → Option (Str × Str)
  | [] => none
  | c :: t =>
    if c == ':' then some ([], t)
    else if isSchemeChar c then (getSchemeCore t).map (fun p => (c :: p.1, p.2))
    else none

/-- Go getScheme followed by the lower-casing in url.parse: none models the
"missing protocol scheme" error; some ([], s) means no scheme present. -/
def getScheme (s : Str) : Option (Str × Str) :=
  match s with
  | [] => some ([], [])
  | c :: _ =>
    if c == ':' then none
    else if !c.isAlpha then some ([], s)
    else match getSchemeCore s with
      | some p => some (p.1.map Char.toLower, p.2)
      | none => some ([], s)

/-- Go parseHost for a bracket-free authority: the part after the last colon
must be all digits (validOptionalPort), otherwise parsing errors. -/
def parseHost (h : Str) : Option Str :=
  match splitLastColon h with
  | none => some h
  | some p => if p.2.all Char.isDigit then some h else none

/-- URL.Hostname(): strip a valid :port suffix, keep the host otherwise. -/
def hostname (h : Str) : Str :=
  match splitLastColon h with
  | none => h
  | some p => if p.2.all Char.isDigit then p.1 else h

/-- The fields of a parsed net/url URL that cleanUrl consumes.  The fragment
is dropped by url.Parse into a separate field never read by the crawler; the
Opaque field of scheme-but-no-authority URLs is likewise never read, so both
are omitted. -/
structure GoUrl where
  scheme : Str
  host : Str
  path : Str
  rawQuery : Str
deriving DecidableEq

/-- Model of url.Parse (viaRequest = false).  In order, as in Go's parse:
cut the fragment at the first hash; scan the scheme; cut the raw query at the
first question mark; a scheme-but-no-slash remainder is opaque (host and path
empty); with no scheme, a colon in the first path segment is an error;
otherwise a leading double slash introduces the authority, which must pass
parseHost; the remainder is the path. -/
def parseGoUrl (s : Str) : Option GoUrl :=
  let beforeFrag := (cutFirst '#' s).1
  match getScheme beforeFrag with
  | none => none
  | some schRest =>
    let sch := schRest.1
    let qcut := cutFirst '?' schRest.2
    let rest := qcut.1
    let query := qcut.2
    if !strStarts rest (lit ("/")) then
      if sch ≠ [] then some ⟨sch, [], [], query⟩
      else if ':' ∈ (cutFirst '/' rest).1 then none
      else some ⟨[], [], rest, query⟩
    else
      if (sch ≠ [] || !strStarts rest (lit ("///"))) && strStarts rest (lit ("//")) then
        let hp := spanHost (rest.drop 2)
        match parseHost hp.1 with
        | none => none
        | some host => some ⟨sch, host, hp.2, query⟩
      else some ⟨sch, [], rest, query⟩

/-- The seed data cleanUrl reads from the Crawler: c.Domain.Scheme and
c.Domain.Hostname(). -/
structure Seed where
  scheme : Str
  host : Str

/-- cleanUrl step: a fragment href resolves to the seed's scheme://host. -/
def fragStage (seed : Seed) (s : Str) : Str :=
  if strStarts s (lit ("#")) then seed.scheme ++ lit ("://") ++ seed.host else s

/-- cleanUrl step: a relative path gets the seed's scheme://host prepended. -/
def relStage (seed : Seed) (s : Str) : Str :=
  if strStarts s (lit ("/")) then seed.scheme ++ lit ("://") ++ seed.host ++ s else s

/-- cleanUrl step: strings containing "127.0.0.1" anywhere and not starting
with "http" get "http://" prepended. -/
def loopbackStage (s : Str) : Str :=
  if strContains s (lit ("127.0.0.1")) && !strStarts s (lit ("http")) then
    lit ("http://") ++ s
  else s

/-- cleanUrl step: anything still not starting with "http" gets "https://"
prepended. -/
def schemeStage (s : Str) : Str :=
  if !strStarts s (lit ("http")) then lit ("https://") ++ s else s

/-- The string-rewriting pipeline cleanUrl applies before url.Parse. -/
def prepStages (seed : Seed) (raw : Str) : Str :=
  schemeStage (loopbackStage (relStage seed (fragStage seed (strTrim raw))))

/-- The scheme default applied after parsing: https unless the parsed host is
exactly 127.0.0.1, in which case http. -/
def reconScheme (u : GoUrl) : Str :=
  if u.scheme = [] then
    (if u.host = lit ("127.0.0.1") then lit ("http") else lit ("https"))
  else u.scheme

/-- The path part of the reconstruction: kept unless empty or exactly "/". -/
def reconPath (u : GoUrl) : Str :=
  if u.path ≠ [] ∧ u.path ≠ ['/'] then u.path else []

/-- The query part of the reconstruction: "?" ++ RawQuery when non-empty. -/
def reconQuery (u : GoUrl) : Str :=
  if u.rawQuery ≠ [] then '?' :: u.rawQuery else []

/-- The reconstruction at the end of cleanUrl:
u.Scheme ++ "://" ++ u.Host ++ path ++ query. -/
def reconUrl (u : GoUrl) : Str :=
  reconScheme u ++ lit ("://") ++ u.host ++ reconPath u ++ reconQuery u

/-- Crawler.cleanUrl (crawler/crawler.go, lines 63-116): none models the
parse-error return, some [] the out-of-scope return, some url success. -/
def cleanUrl (seed : Seed) (raw : Str) : Option Str :=
  match parseGoUrl (prepStages seed raw) with
  | none => none
  | some u => if hostname u.host ≠ seed.host then some [] else some (reconUrl u)

/-- The seed of the crawler_test.go fixtures: https://example.com. -/
def seedEx : Seed := ⟨lit ("https"), lit ("example.com")⟩

example : cleanUrl seedEx (lit ("example.com:8080")) = some (lit ("https://example.com:8080")) := by decide
example : cleanUrl seedEx (lit ("example.com")) = some (lit ("https://example.com")) := by decide
example : cleanUrl seedEx (lit (" example.com")) = some (lit ("https://example.com")) := by decide
example : cleanUrl seedEx (lit ("example.com/")) = some (lit ("https://example.com")) := by decide
example : cleanUrl seedEx (lit ("subdomain.example.com/")) = some [] := by decide
example : cleanUrl seedEx (lit (" https://example.com")) = some (lit ("https://example.com")) := by decide
example : cleanUrl seedEx (lit ("#fragment")) = some (lit ("https://example.com")) := by decide
example : cleanUrl seedEx (lit ("/relative/path")) = some (lit ("https://example.com/relative/path")) := by decide
example : cleanUrl seedEx (lit ("/")) = some (lit ("https://example.com")) := by decide
example : cleanUrl seedEx (lit ("google.com")) = some [] := by decide
example : cleanUrl seedEx (lit ("https://google.com")) = some [] := by decide

/-! ## The per-page pipeline: filteredLinks, startFindLinks, ProcessResponse -/

/-- The loop body of filteredLinks (crawler/crawler.go, lines 121-136), with
the seen set as an explicit accumulator: drop empty strings, drop strings
already seen, keep first occurrences in order. -/
def filteredLinksAux (seen : List Str) : List Str → List Str
  | [] => []
  | l :: t =>
    if l.length = 0 then filteredLinksAux seen t
    else if l ∈ seen then filteredLinksAux seen t
    else l :: filteredLinksAux (l :: seen) t

/-- filteredLinks: unique non-empty entries in first-seen order. -/
def filteredLinks (links : List Str) : List Str := filteredLinksAux [] links

/-- startFindLinks (crawler/crawler.go, lines 182-197) after html.Parse and
findLinks have produced the raw href list (the HTML parser is the external
collaborator, so the href list is the model's input): run cleanUrl on every
href, skip the ones where cleaning errors, keep every returned string —
including the empty out-of-scope results. -/
def startFindLinks (seed : Seed) (hrefs : List Str) : List Str :=
  hrefs.filterMap (fun a => cleanUrl seed a)

/-- One Data record of the output stream: the fmt.Sprintf
"%d,%s,%s" (statusCode, url, link) sent to c.Out. -/
structure OutputRec where
  status : Nat
  source : Str
  link : Str
deriving DecidableEq

/-- The final loop of ProcessResponse (crawler/crawler.go, lines 166-171):
for each link of the filtered list, append cleanUrl of it (error ignored,
empty string on error) to found, and emit one Data record carrying the link
the loop iterates over. -/
def processLoop (status : Nat) (srcUrl : Str) (seed : Seed) :
    List Str → List Str × List OutputRec
  | [] => ([], [])
  | link :: t =>
    let rest := processLoop status srcUrl seed t
    ((cleanUrl seed link).getD [] :: rest.1,
     OutputRec.mk status srcUrl link :: rest.2)

/-- Crawler.ProcessResponse (crawler/crawler.go, lines 143-175) on a fetched
response whose body the HTML parser turned into the href list hrefs: reject
content types containing neither "text/html" nor "text/plain" (none models
the error return with an empty batch), otherwise clean all hrefs
(startFindLinks), filter the cleaned list, and run the found/output loop.
The body-read and html.Parse error paths are I/O failures of the external
collaborators and also return an empty batch with an error. -/
def ProcessResponse (seed : Seed) (status : Nat) (srcUrl contentType : Str)
    (hrefs : List Str) : Option (List Str × List OutputRec) :=
  if !(strContains contentType (lit ("text/html")) ||
       strContains contentType (lit ("text/plain"))) then none
  else some (processLoop status srcUrl seed (filteredLinks (startFindLinks seed hrefs)))

/-! ## The fetcher retry loop -/

/-- What one GET attempt of Fetcher.worker can observe: a transport error
(err != nil from http.Get), a response that arrived after the per-attempt
context deadline had expired (err == nil, ctx.Err() == DeadlineExceeded), or
a response in time. -/
inductive AttemptOutcome where
  | transportError
  | slowResponse
  | goodResponse
deriving DecidableEq

/-- The observable actions of Fetcher.worker on one URL: an error record sent
to f.Err, a fixed backoff sleep (seconds recorded), or publishing the
response to f.Fetch. -/
inductive FetchEvent where
  | errRec
  | sleep (seconds : Nat)
  | publish
deriving DecidableEq

/-- The retry loop of Fetcher.worker (fetcher/fetcher.go, lines 77-102), with
the outcome of each successive attempt given as a list (the loop runs one
entry per iteration): on error or deadline, emit an error record, then
time.Sleep(1 * time.Second) and continue if retries remain, else break; on a
good response, publish it and break. -/
def runAttempts : List AttemptOutcome → List FetchEvent
  | [] => []
  | AttemptOutcome.goodResponse :: _ => [FetchEvent.publish]
  | AttemptOutcome.transportError :: rest =>
    FetchEvent.errRec :: (if rest = [] then [] else FetchEvent.sleep 1 :: runAttempts rest)
  | AttemptOutcome.slowResponse :: rest =>
    FetchEvent.errRec :: (if rest = [] then [] else FetchEvent.sleep 1 :: runAttempts rest)

/-- Fetcher.worker on one URL with retry count R: the loop
for retries := 0; retries <= f.RetryCount; retries++ makes at most R+1
attempts, attempt i observing outcome oc i. -/
def fetcherWorkerEvents (retryCount : Nat) (oc : Nat → AttemptOutcome) : List FetchEvent :=
  runAttempts ((List.range (retryCount + 1)).map oc)

/-! ## The crawl pipeline of main.go

A small-step interleaving model of the goroutines of main.go (seed, cache,
worker pool, monitor) around the shared data.Data map.  URLs are strings; the
link graph g maps a URL to the batch ProcessResponse would return for it,
abstracting the fetch + parse of one page.  The visited map is an association
list in insertion order; the channels worklist and unseenUrls appear as the
pending and unseen pools, from which steps may pick any element (covering
every interleaving of batches and of the 20 workers).  Each step is exactly
one critical section of the Go code: cacheA performs one iteration of the
cache loop body under visited.Mu (membership test, insert, and the send to
unseenUrls all inside the lock); pickA is a worker receiving from unseenUrls;
fetchA is a worker calling fetcher.NewRequest and (collapsed) processing the
response into a batch handed back to the worklist; monitorA is one poll of
the monitor loop under visited.Mu.  The ghost fields sent and dispatched
record every URL ever sent to unseenUrls and every URL ever handed to the
Fetcher; they touch nothing else. -/

abbrev Url := Str

/-- The state of the running pipeline. -/
structure CrawlState where
  links : List (Url × Bool)
  pending : List Url
  unseen : List Url
  holding : List Url
  dispatched : List Url
  sent : List Url
  chances : Nat
  lastSeen : Nat
  lastVisited : Nat
  closed : Bool
deriving DecidableEq

/-- Map read: the value stored at u, if any. -/
def lookupLink (links : List (Url × Bool)) (u : Url) : Option Bool :=
  (links.find? (fun p => decide (p.1 = u))).map (fun p => p.2)

/-- Go map read with zero value: visited.Links[link]. -/
def linkValue (links : List (Url × Bool)) (u : Url) : Bool :=
  (lookupLink links u).getD false

/-- Go map write: visited.Links[link] = b. -/
def setLink (links : List (Url × Bool)) (u : Url) (b : Bool) : List (Url × Bool) :=
  if (lookupLink links u).isSome then
    links.map (fun p => if p.1 = u then (p.1, b) else p)
  else links ++ [(u, b)]

/-- The count of map entries whose value is true: the seen list built by one
monitor poll. -/
def countTrue (links : List (Url × Bool)) : Nat :=
  (links.filter (fun p => p.2)).length

/-- One poll of the monitor loop (main.go part, lines 115-159): under the
lock, collect the true-valued entries; reset chances when their count differs
from the map size; increment chances when count, size, lastSeen and
lastVisited all agree and the map is non-empty; at chances = 3 close done,
worklist and unseenUrls and return, otherwise record lastSeen and
lastVisited. -/
def monitorPoll (s : CrawlState) : CrawlState :=
  let seen := countTrue s.links
  let total := s.links.length
  let ch0 := if seen ≠ total then 0 else s.chances
  let ch1 := if seen = total ∧ seen = s.lastSeen ∧ total = s.lastVisited ∧ total > 0
             then ch0 + 1 else ch0
  if ch1 = 3 then { s with chances := ch1, closed := true }
  else { s with chances := ch1, lastSeen := seen, lastVisited := total }

/-- The schedulable steps of the pipeline. -/
inductive CrawlAct where
  | cacheA (i : Nat)
  | pickA (i : Nat)
  | fetchA (i : Nat)
  | monitorA
deriving DecidableEq

/-- One interleaving step.  After the monitor has closed the channels every
goroutine's next select observes done and returns, so no further step fires.
cacheA i: the cache goroutine processes the i-th pending URL under the lock —
if !visited.Links[link] then store true and send to unseenUrls (cache,
main.go part, lines 89-95).  pickA i: a worker receives the i-th unseen URL.
fetchA i: a worker holding a URL calls fetcher.NewRequest on it and its
processed batch g u joins the worklist (worker, main.go part, lines 54-66).
monitorA: one monitor poll. -/
def applyStep (g : Url → List Url) (s : CrawlState) : CrawlAct → Option CrawlState
  | CrawlAct.cacheA i =>
    if s.closed then none else
    match s.pending[i]? with
    | none => none
    | some u =>
      if linkValue s.links u = false then
        some { s with pending := s.pending.eraseIdx i,
                      links := setLink s.links u true,
                      unseen := s.unseen ++ [u],
                      sent := s.sent ++ [u] }
      else some { s with pending := s.pending.eraseIdx i }
  | CrawlAct.pickA i =>
    if s.closed then none else
    match s.unseen[i]? with
    | none => none
    | some u => some { s with unseen := s.unseen.eraseIdx i, holding := s.holding ++ [u] }
  | CrawlAct.fetchA i =>
    if s.closed then none else
    match s.holding[i]? with
    | none => none
    | some u => some { s with holding := s.holding.eraseIdx i,
                              dispatched := s.dispatched ++ [u],
                              pending := s.pending ++ g u }
  | CrawlAct.monitorA => if s.closed then none else some (monitorPoll s)

/-- The state at startup: empty map, the seed batch enqueued on the worklist
by the seed goroutine, counters zero (main.go part, lines 40-43 and
204-231). -/
def initState (seedUrl : Url) : CrawlState :=
  ⟨[], [seedUrl], [], [], [], [], 0, 0, 0, false⟩

/-- Run a schedule of steps; none when some step is not enabled. -/
def run (g : Url → List Url) : CrawlState → List CrawlAct → Option CrawlState
  | s, [] => some s
  | s, a :: t =>
    match applyStep g s a with
    | none => none
    | some s1 => run g s1 t

/-- The states some interleaving of the pipeline can reach from startup. -/
def Reachable (g : Url → List Url) (seedUrl : Url) (s : CrawlState) : Prop :=
  ∃ acts, run g (initState seedUrl) acts = some s

/-! ## The Fronter.cache variant -/

/-- One iteration of the Fronter.cache loop body (fronter/fronter.go, lines
98-104) under the lock: if !f.Seen.Links[link] then store FALSE and send to
f.Unseen.  State: (the Seen.Links map, every URL sent to Unseen so far). -/
def fronterCacheLink (st : List (Url × Bool) × List Url) (u : Url) :
    List (Url × Bool) × List Url :=
  if linkValue st.1 u = false then (setLink st.1 u false, st.2 ++ [u]) else st

/-- Fronter.cache consuming a sequence of worklist batches. -/
def fronterCache (batches : List (List Url)) : List (Url × Bool) × List Url :=
  batches.foldl (fun st batch => batch.foldl fronterCacheLink st) ([], [])

/-- One iteration of the cache loop body of main.go (part lines 89-95), same
shape but storing TRUE, for the side-by-side comparison. -/
def mainCacheLink (st : List (Url × Bool) × List Url) (u : Url) :
    List (Url × Bool) × List Url :=
  if linkValue st.1 u = false then (setLink st.1 u true, st.2 ++ [u]) else st

/-- The cache goroutine of main.go consuming a sequence of worklist
batches. -/
def mainCache (batches : List (List Url)) : List (Url × Bool) × List Url :=
  batches.foldl (fun st batch => batch.foldl mainCacheLink st) ([], [])

/-- The seed URL used in all concrete schedules below. -/
def seedU : Url := lit ("https://example.com")

/-- A link graph with no outgoing links (every page is empty). -/
def gEmpty : Url → List Url := fun _ => []

example :
    run gEmpty (initState seedU)
      [CrawlAct.cacheA 0, CrawlAct.pickA 0, CrawlAct.monitorA, CrawlAct.monitorA,
       CrawlAct.monitorA, CrawlAct.monitorA] =
    some ⟨[(seedU, true)], [], [], [seedU], [], [seedU], 3, 1, 1, true⟩ := by decide

example : (fronterCache [[seedU], [seedU]]).2 = [seedU, seedU] := by decide
example : (mainCache [[seedU], [seedU]]).2 = [seedU] := by decide

/-! ## Lemmas about the visited map and the pipeline invariant -/

theorem perm_cons_eraseIdx {α : Type} {l : List α} :
    ∀ {i : Nat} {u : α}, l[i]? = some u → l.Perm (u :: l.eraseIdx i) := by
  induction l with
  | nil => intro i u h; simp at h
  | cons a t ih =>
    intro i u h
    cases i with
    | zero =>
      simp only [List.getElem?_cons_zero, Option.some.injEq] at h
      subst h
      simp [List.eraseIdx]
    | succ n =>
      simp only [List.getElem?_cons_succ] at h
      have h2 := (ih h).cons a
      refine h2.trans ?_
      have he : (a :: t).eraseIdx (n + 1) = a :: t.eraseIdx n := rfl
      rw [he]
      exact List.Perm.swap u a _

theorem lookupLink_eq_some {links : List (Url × Bool)} {u : Url} {b : Bool}
    (h : lookupLink links u = some b) : (u, b) ∈ links := by
  simp only [lookupLink, Option.map_eq_some'] at h
  obtain ⟨p, hf, hb⟩ := h
  have hm := List.mem_of_find?_eq_some hf
  have hp := List.find?_some hf
  simp only [decide_eq_true_eq] at hp
  cases p with
  | mk x y =>
    simp only at hp hb
    subst hp
    subst hb
    exact hm

theorem lookupLink_isSome_of_mem {links : List (Url × Bool)} {u : Url}
    (h : u ∈ links.map Prod.fst) : (lookupLink links u).isSome = true := by
  simp only [List.mem_map] at h
  obtain ⟨p, hp, hpu⟩ := h
  have : (links.find? (fun q => decide (q.1 = u))).isSome = true := by
    rw [List.find?_isSome]
    exact ⟨p, hp, by simp [hpu]⟩
  simpa [lookupLink] using this

theorem lookup_none_of_value_false {links : List (Url × Bool)}
    (hall : ∀ p ∈ links, p.2 = true) {u : Url}
    (h : linkValue links u = false) : lookupLink links u = none := by
  cases hl : lookupLink links u with
  | none => rfl
  | some b =>
    have hm := lookupLink_eq_some hl
    have hb := hall _ hm
    simp only at hb
    rw [linkValue, hl] at h
    simp [hb] at h

theorem setLink_absent {links : List (Url × Bool)} {u : Url} {b : Bool}
    (h : lookupLink links u = none) : setLink links u b = links ++ [(u, b)] := by
  simp [setLink, h]

/-- The inductive invariant of the pipeline: every map value is true, the map
keys in insertion order are exactly the URLs ever sent to unseenUrls, no URL
was sent twice, every sent URL is in exactly one of the unseen pool, a
worker's hands, or the dispatched set, and chances stays at most 2 until the
monitor closes. -/
structure CrawlInv (s : CrawlState) : Prop where
  allTrue : ∀ p ∈ s.links, p.2 = true
  keysSent : s.links.map Prod.fst = s.sent
  sentNodup : s.sent.Nodup
  sentPerm : s.sent.Perm (s.unseen ++ s.holding ++ s.dispatched)
  chancesLe : s.closed = false → s.chances ≤ 2

theorem crawlInv_init (seedUrl : Url) : CrawlInv (initState seedUrl) := by
  constructor <;> simp [initState]

theorem monitorPoll_eta (s : CrawlState) :
    (monitorPoll s).links = s.links ∧ (monitorPoll s).pending = s.pending ∧
    (monitorPoll s).unseen = s.unseen ∧ (monitorPoll s).holding = s.holding ∧
    (monitorPoll s).dispatched = s.dispatched ∧ (monitorPoll s).sent = s.sent := by
  unfold monitorPoll
  dsimp only
  refine ⟨?_, ?_, ?_, ?_, ?_, ?_⟩ <;>
    simp only [apply_ite CrawlState.links, apply_ite CrawlState.pending,
      apply_ite CrawlState.unseen, apply_ite CrawlState.holding,
      apply_ite CrawlState.dispatched, apply_ite CrawlState.sent, ite_self]

theorem monitorPoll_chancesLe (s : CrawlState) (hch : s.chances ≤ 2)
    (hop : (monitorPoll s).closed = false) : (monitorPoll s).chances ≤ 2 := by
  unfold monitorPoll at hop ⊢
  dsimp only at hop ⊢
  set c0 : Nat := if countTrue s.links ≠ s.links.length then 0 else s.chances with hc0
  set c1 : Nat := if countTrue s.links = s.links.length ∧ countTrue s.links = s.lastSeen ∧
      s.links.length = s.lastVisited ∧ s.links.length > 0 then c0 + 1 else c0 with hc1
  by_cases h3 : c1 = 3
  · simp [h3] at hop
  · simp only [if_neg h3] at hop ⊢
    have hle0 : c0 ≤ 2 := by rw [hc0]; split <;> omega
    have hle1 : c1 ≤ c0 + 1 := by rw [hc1]; split <;> omega
    omega

theorem applyStep_inv {g : Url → List Url} {s s' : CrawlState} {a : CrawlAct}
    (hinv : CrawlInv s) (h : applyStep g s a = some s') : CrawlInv s' := by
  cases a with
  | cacheA i =>
    simp only [applyStep] at h
    by_cases hcl : s.closed = true
    · rw [if_pos hcl] at h; exact Option.noConfusion h
    · rw [if_neg hcl] at h
      cases hpi : s.pending[i]? with
      | none => rw [hpi] at h; exact Option.noConfusion h
      | some u =>
        simp only [hpi] at h
        by_cases hv : linkValue s.links u = false
        · rw [if_pos hv] at h
          injection h with h
          subst h
          have habs : lookupLink s.links u = none :=
            lookup_none_of_value_false hinv.allTrue hv
          have hset := @setLink_absent _ _ true habs
          refine ⟨?_, ?_, ?_, ?_, ?_⟩
          · intro p hp
            dsimp only at hp
            rw [hset] at hp
            rcases List.mem_append.mp hp with h1 | h1
            · exact hinv.allTrue p h1
            · simp only [List.mem_singleton] at h1
              subst h1
              rfl
          · dsimp only
            rw [hset]
            simp [hinv.keysSent]
          · dsimp only
            refine List.Nodup.append hinv.sentNodup (List.nodup_singleton u) ?_
            intro w hw hb
            simp only [List.mem_singleton] at hb
            rw [hb] at hw
            have hmem : u ∈ s.links.map Prod.fst := by rw [hinv.keysSent]; exact hw
            have hsome := lookupLink_isSome_of_mem hmem
            rw [habs] at hsome
            simp at hsome
          · dsimp only
            refine List.perm_iff_count.mpr fun v => ?_
            have hc := hinv.sentPerm.count_eq v
            simp only [List.count_append, List.count_cons, List.count_nil] at *
            omega
          · dsimp only
            exact hinv.chancesLe
        · rw [if_neg hv] at h
          injection h with h
          subst h
          exact ⟨hinv.allTrue, hinv.keysSent, hinv.sentNodup, hinv.sentPerm, hinv.chancesLe⟩
  | pickA i =>
    simp only [applyStep] at h
    by_cases hcl : s.closed = true
    · rw [if_pos hcl] at h; exact Option.noConfusion h
    · rw [if_neg hcl] at h
      cases hpi : s.unseen[i]? with
      | none => rw [hpi] at h; exact Option.noConfusion h
      | some u =>
        simp only [hpi] at h
        injection h with h
        subst h
        refine ⟨hinv.allTrue, hinv.keysSent, hinv.sentNodup, ?_, hinv.chancesLe⟩
        refine List.perm_iff_count.mpr fun v => ?_
        have hc := hinv.sentPerm.count_eq v
        have hc2 := (perm_cons_eraseIdx hpi).count_eq v
        simp only [List.count_append, List.count_cons, List.count_nil] at *
        omega
  | fetchA i =>
    simp only [applyStep] at h
    by_cases hcl : s.closed = true
    · rw [if_pos hcl] at h; exact Option.noConfusion h
    · rw [if_neg hcl] at h
      cases hpi : s.holding[i]? with
      | none => rw [hpi] at h; exact Option.noConfusion h
      | some u =>
        simp only [hpi] at h
        injection h with h
        subst h
        refine ⟨hinv.allTrue, hinv.keysSent, hinv.sentNodup, ?_, hinv.chancesLe⟩
        refine List.perm_iff_count.mpr fun v => ?_
        have hc := hinv.sentPerm.count_eq v
        have hc2 := (perm_cons_eraseIdx hpi).count_eq v
        simp only [List.count_append, List.count_cons, List.count_nil] at *
        omega
  | monitorA =>
    simp only [applyStep] at h
    by_cases hcl : s.closed = true
    · rw [if_pos hcl] at h; exact Option.noConfusion h
    · rw [if_neg hcl] at h
      injection h with h
      subst h
      obtain ⟨hl, hpd, hun, hhd, hdp, hsn⟩ := monitorPoll_eta s
      refine ⟨?_, ?_, ?_, ?_, ?_⟩
      · rw [hl]; exact hinv.allTrue
      · rw [hl, hsn]; exact hinv.keysSent
      · rw [hsn]; exact hinv.sentNodup
      · rw [hsn, hun, hhd, hdp]; exact hinv.sentPerm
      · exact fun _ => monitorPoll_chancesLe s (hinv.chancesLe (by simpa using hcl)) (by assumption)

theorem run_inv {g : Url → List Url} :
    ∀ (acts : List CrawlAct) (s s' : CrawlState),
      CrawlInv s → run g s acts = some s' → CrawlInv s' := by
  intro acts
  induction acts with
  | nil =>
    intro s s' hinv h
    simp only [run] at h
    injection h with h
    subst h
    exact hinv
  | cons a t ih =>
    intro s s' hinv h
    simp only [run] at h
    cases ha : applyStep g s a with
    | none => rw [ha] at h; exact Option.noConfusion h
    | some s1 =>
      rw [ha] at h
      exact ih s1 s' (applyStep_inv hinv ha) h

theorem reachable_inv {g : Url → List Url} {seedUrl : Url} {s : CrawlState}
    (hr : Reachable g seedUrl s) : CrawlInv s := by
  obtain ⟨acts, hacts⟩ := hr
  exact run_inv acts _ _ (crawlInv_init seedUrl) hacts

/-- In the running pipeline a URL is forwarded to unseenUrls at most once:
the sent history of every reachable state has no duplicates (this is the
first-writer-wins guarantee of the cache stage of main.go). -/
theorem pipeline_sends_each_url_at_most_once {g : Url → List Url} {seedUrl : Url}
    {s : CrawlState} (hr : Reachable g seedUrl s) : s.sent.Nodup :=
  (reachable_inv hr).sentNodup

/-! ## Monitor progress -/

theorem countTrue_of_allTrue {links : List (Url × Bool)}
    (hall : ∀ p ∈ links, p.2 = true) : countTrue links = links.length := by
  unfold countTrue
  rw [List.filter_eq_self.mpr]
  intro a ha
  simpa using hall a ha

theorem monitorPoll_stable (s : CrawlState)
    (hseen : countTrue s.links = s.links.length)
    (hpos : 0 < s.links.length)
    (hls : s.lastSeen = s.links.length) (hlv : s.lastVisited = s.links.length) :
    monitorPoll s =
      if s.chances + 1 = 3 then
        { s with chances := s.chances + 1, closed := true }
      else
        { s with chances := s.chances + 1,
                 lastSeen := s.links.length, lastVisited := s.links.length } := by
  unfold monitorPoll
  simp [hseen, hls, hlv, hpos]

theorem monitorPoll_unstable (s : CrawlState)
    (hseen : countTrue s.links = s.links.length)
    (hns : ¬(s.lastSeen = s.links.length ∧ s.lastVisited = s.links.length))
    (hch : s.chances ≤ 2) :
    monitorPoll s = { s with chances := s.chances,
                             lastSeen := s.links.length, lastVisited := s.links.length } := by
  unfold monitorPoll
  have hcond : ¬(s.links.length = s.lastSeen ∧ s.links.length = s.lastVisited ∧
      0 < s.links.length) := by
    rintro ⟨h1, h2, -⟩
    exact hns ⟨h1.symm, h2.symm⟩
  have h3 : ¬(s.chances = 3) := by omega
  simp [hseen, hcond, h3]

theorem run_polls_closes (g : Url → List Url) :
    ∀ (m : Nat) (s : CrawlState),
      3 - s.chances = m → s.chances ≤ 2 →
      (∀ p ∈ s.links, p.2 = true) → s.links ≠ [] →
      s.lastSeen = s.links.length → s.lastVisited = s.links.length →
      s.closed = false →
      ∃ s2, run g s (List.replicate m CrawlAct.monitorA) = some s2 ∧ s2.closed = true := by
  intro m
  induction m with
  | zero => intro s hm hch _ _ _ _ _; omega
  | succ n ih =>
    intro s hm hch hall hne hls hlv hcl
    have hseen := countTrue_of_allTrue hall
    have hpos : 0 < s.links.length := List.length_pos.mpr hne
    have hstable := monitorPoll_stable s hseen hpos hls hlv
    have hstep : applyStep g s CrawlAct.monitorA = some (monitorPoll s) := by
      simp [applyStep, hcl]
    rw [List.replicate_succ]
    simp only [run, hstep]
    by_cases h3 : s.chances + 1 = 3
    · have hn : n = 0 := by omega
      subst hn
      rw [hstable, if_pos h3]
      exact ⟨{ s with chances := s.chances + 1, closed := true }, by simp [run], rfl⟩
    · rw [hstable, if_neg h3]
      exact ih _ (by simp; omega) (by simp; omega) hall hne rfl rfl (by simp [hcl])

theorem run_append (g : Url → List Url) (s : CrawlState) (l1 l2 : List CrawlAct) :
    run g s (l1 ++ l2) = (run g s l1).bind (fun s1 => run g s1 l2) := by
  induction l1 generalizing s with
  | nil => simp [run]
  | cons a t ih =>
    simp only [List.cons_append, run]
    cases applyStep g s a with
    | none => simp
    | some s1 => simp [ih]

/-! ## Claim theorems about the pipeline -/

/-- C10: in every reachable state of the pipeline every key of the visited map
has value true — cache stores true at first discovery and nothing ever stores
false — so the monitor's seen-count equals the map size at every poll. -/
theorem visited_map_values_always_true
    (g : Url → List Url) (seedUrl : Url) (s : CrawlState) (hr : Reachable g seedUrl s) :
    (∀ p ∈ s.links, p.2 = true) ∧ countTrue s.links = s.links.length := by
  have hinv := reachable_inv hr
  exact ⟨hinv.allTrue, countTrue_of_allTrue hinv.allTrue⟩

/-- State reached from startup by the cache stage processing the seed batch. -/
def discState : CrawlState :=
  ⟨[(seedU, true)], [], [seedU], [], [], [seedU], 0, 0, 0, false⟩

/-- Witness for visited_map_values_always_true at a concrete reachable
state. -/
theorem visited_map_values_always_true_witness :
    Reachable gEmpty seedU discState ∧
    ((∀ p ∈ discState.links, p.2 = true) ∧
      countTrue discState.links = discState.links.length) :=
  ⟨⟨[CrawlAct.cacheA 0], by decide⟩,
   visited_map_values_always_true gEmpty seedU discState
     ⟨[CrawlAct.cacheA 0], by decide⟩⟩

/-- The schedule on which the monitor closes the pipeline while the seed URL
is still held by a worker that has not yet dispatched it to the Fetcher. -/
def cexTrace : List CrawlAct :=
  [CrawlAct.cacheA 0, CrawlAct.pickA 0, CrawlAct.monitorA, CrawlAct.monitorA,
   CrawlAct.monitorA, CrawlAct.monitorA]

/-- The state that schedule reaches. -/
def cexFinal : CrawlState :=
  ⟨[(seedU, true)], [], [], [seedU], [], [seedU], 3, 1, 1, true⟩

/-- C1 counterexample: on the one-page graph with no outgoing links there is
an interleaving — cache inserts the seed, a worker receives it from
unseenUrls, then the monitor polls four times before the worker dispatches —
after which the monitor has raised the cancellation signal (closed the done,
worklist and unseenUrls channels) while the seed URL, recorded in the
VisitedSet, has never been handed to the Fetcher (dispatched = []), i.e.
while it is still discovered-but-not-fetched.  The map cannot distinguish
this state because cache stored true at discovery. -/
theorem monitor_closes_while_url_undispatched :
    run gEmpty (initState seedU) cexTrace = some cexFinal ∧
    cexFinal.closed = true ∧ cexFinal.dispatched = [] ∧
    cexFinal.links.map Prod.fst = [seedU] ∧ cexFinal.holding = [seedU] := by decide

/-- C1 (amended): once the pipeline is quiescent — no pending batches, no
queued unseen URLs, no worker holding an undispatched URL, and a non-empty
visited map — every URL the crawl ever discovered has been dispatched for
fetching, and the monitor raises the cancellation signal within at most four
further polls.  (The original claim's second half — never closing while some
URL is discovered-but-unfetched — is refuted by
monitor_closes_while_url_undispatched: the map values are all true, so the
monitor cannot observe undispatched URLs.) -/
theorem monitor_completion_after_quiescence
    (g : Url → List Url) (seedUrl : Url) (s : CrawlState)
    (hr : Reachable g seedUrl s)
    (hp : s.pending = []) (hu : s.unseen = []) (hh : s.holding = [])
    (hne : s.links ≠ []) (hcl : s.closed = false) :
    (∀ u ∈ s.links.map Prod.fst, u ∈ s.dispatched) ∧
    ∃ k, k ≤ 4 ∧ ∃ s2, run g s (List.replicate k CrawlAct.monitorA) = some s2 ∧
      s2.closed = true := by
  have hinv := reachable_inv hr
  constructor
  · intro u hu2
    rw [hinv.keysSent] at hu2
    have hmem := hinv.sentPerm.mem_iff.mp hu2
    simpa [hu, hh] using hmem
  · have hseen := countTrue_of_allTrue hinv.allTrue
    have hch := hinv.chancesLe hcl
    by_cases hst : s.lastSeen = s.links.length ∧ s.lastVisited = s.links.length
    · obtain ⟨s2, hrun, hclosed⟩ :=
        run_polls_closes g (3 - s.chances) s rfl hch hinv.allTrue hne hst.1 hst.2 hcl
      exact ⟨3 - s.chances, by omega, s2, hrun, hclosed⟩
    · have hun := monitorPoll_unstable s hseen hst hch
      have hstep : applyStep g s CrawlAct.monitorA = some (monitorPoll s) := by
        simp [applyStep, hcl]
      obtain ⟨s2, hrun, hclosed⟩ :=
        run_polls_closes g (3 - s.chances) (monitorPoll s)
          (by rw [hun]) (by rw [hun]; simpa using hch)
          (by rw [hun]; simpa using hinv.allTrue)
          (by rw [hun]; simpa using hne)
          (by rw [hun]) (by rw [hun]) (by rw [hun]; simpa using hcl)
      refine ⟨1 + (3 - s.chances), by omega, s2, ?_, hclosed⟩
      rw [List.replicate_add, run_append]
      simp only [List.replicate_one, run, hstep]
      exact hrun

/-- State reached when the seed page (with no links) has been fully processed:
quiescent, everything dispatched, monitor counters untouched. -/
def quietState : CrawlState :=
  ⟨[(seedU, true)], [], [], [], [seedU], [seedU], 0, 0, 0, false⟩

/-- Witness for monitor_completion_after_quiescence at a concrete quiescent
reachable state. -/
theorem monitor_completion_after_quiescence_witness :
    Reachable gEmpty seedU quietState ∧ quietState.pending = [] ∧
    quietState.unseen = [] ∧ quietState.holding = [] ∧
    quietState.links ≠ [] ∧ quietState.closed = false ∧
    ((∀ u ∈ quietState.links.map Prod.fst, u ∈ quietState.dispatched) ∧
     ∃ k, k ≤ 4 ∧ ∃ s2, run gEmpty quietState (List.replicate k CrawlAct.monitorA) = some s2 ∧
       s2.closed = true) :=
  ⟨⟨[CrawlAct.cacheA 0, CrawlAct.pickA 0, CrawlAct.fetchA 0], by decide⟩,
   rfl, rfl, rfl, by decide, rfl,
   monitor_completion_after_quiescence gEmpty seedU quietState
     ⟨[CrawlAct.cacheA 0, CrawlAct.pickA 0, CrawlAct.fetchA 0], by decide⟩
     rfl rfl rfl (by decide) rfl⟩

/-- C2: Fronter.cache stores false at insertion, so for a URL appearing in two
successive WorkBatches the guard !f.Seen.Links[link] is true both times and
the URL is sent to the Unseen channel twice — the claimed at-most-once
forwarding fails for this cited implementation (the cache stage of main.go,
which stores true, forwards it once; see
pipeline_sends_each_url_at_most_once). -/
theorem fronter_cache_forwards_same_url_twice :
    (fronterCache [[seedU], [seedU]]).2 = [seedU, seedU] ∧
    (fronterCache [[seedU], [seedU]]).1 = [(seedU, false)] ∧
    (mainCache [[seedU], [seedU]]).2 = [seedU] ∧
    (mainCache [[seedU], [seedU]]).1 = [(seedU, true)] := by decide

/-- C3: the cache stage of main.go stores the value true (the map's
"has been scraped" value per the data package's documentation) at the moment
of first discovery, before any dispatch: after cache processes the seed the
map reads [(seed, true)] while dispatched is still empty, and the later
dispatch to the Fetcher leaves the map entry unchanged — there is no
Discovered state and no transition at dispatch time. -/
theorem cache_stores_true_at_discovery_and_dispatch_changes_nothing :
    (run gEmpty (initState seedU) [CrawlAct.cacheA 0]).map
        (fun s => (s.links, s.dispatched)) = some ([(seedU, true)], []) ∧
    (run gEmpty (initState seedU)
        [CrawlAct.cacheA 0, CrawlAct.pickA 0, CrawlAct.fetchA 0]).map
        (fun s => (s.links, s.dispatched)) = some ([(seedU, true)], [seedU]) := by decide

/-! ## Claim theorems about the fetcher and the fixture table -/

theorem runAttempts_all_fail (l : List AttemptOutcome)
    (hfail : ∀ o ∈ l, o ≠ AttemptOutcome.goodResponse) :
    (runAttempts l).count FetchEvent.errRec = l.length ∧
    (runAttempts l).count (FetchEvent.sleep 1) = l.length - 1 ∧
    (∀ e ∈ runAttempts l, e = FetchEvent.errRec ∨ e = FetchEvent.sleep 1) := by
  induction l with
  | nil => simp [runAttempts]
  | cons o rest ih =>
    have hrest : ∀ o ∈ rest, o ≠ AttemptOutcome.goodResponse :=
      fun o ho => hfail o (List.mem_cons_of_mem _ ho)
    obtain ⟨ih1, ih2, ih3⟩ := ih hrest
    cases o with
    | goodResponse => exact absurd rfl (hfail _ (List.mem_cons_self _ _))
    | transportError =>
      by_cases hr : rest = []
      · subst hr
        simp [runAttempts]
      · refine ⟨?_, ?_, ?_⟩
        · simp [runAttempts, hr, List.count_cons, ih1]
        · have hpos : 0 < rest.length := List.length_pos.mpr hr
          simp [runAttempts, hr, List.count_cons, ih2]
          omega
        · intro e he
          simp only [runAttempts, if_neg hr, List.mem_cons] at he
          rcases he with rfl | rfl | he
          · exact Or.inl rfl
          · exact Or.inr rfl
          · exact ih3 e he
    | slowResponse =>
      by_cases hr : rest = []
      · subst hr
        simp [runAttempts]
      · refine ⟨?_, ?_, ?_⟩
        · simp [runAttempts, hr, List.count_cons, ih1]
        · have hpos : 0 < rest.length := List.length_pos.mpr hr
          simp [runAttempts, hr, List.count_cons, ih2]
          omega
        · intro e he
          simp only [runAttempts, if_neg hr, List.mem_cons] at he
          rcases he with rfl | rfl | he
          · exact Or.inl rfl
          · exact Or.inr rfl
          · exact ih3 e he

/-- C6: when every one of a URL's GET attempts fails (transport error from
http.Get, or a response arriving after the per-attempt context deadline),
Fetcher.worker makes exactly RetryCount+1 attempts, emits exactly
RetryCount+1 error records, sleeps the fixed time.Sleep(1 second) backoff
exactly RetryCount times — once between each pair of consecutive attempts and
with no other duration, so not exponential — and never publishes a response
to the Fetch channel, so the URL yields no ProcessResponse call and no
WorkBatch entries.  (The per-attempt wall-clock deadline itself is real time
and enters the model only as the observed outcome of the attempt.) -/
theorem fetcher_worker_all_attempts_fail
    (retryCount : Nat) (oc : Nat → AttemptOutcome)
    (hfail : ∀ i ≤ retryCount, oc i ≠ AttemptOutcome.goodResponse) :
    (fetcherWorkerEvents retryCount oc).count FetchEvent.errRec = retryCount + 1 ∧
    (fetcherWorkerEvents retryCount oc).count (FetchEvent.sleep 1) = retryCount ∧
    (∀ e ∈ fetcherWorkerEvents retryCount oc,
      e = FetchEvent.errRec ∨ e = FetchEvent.sleep 1) ∧
    (fetcherWorkerEvents retryCount oc).count FetchEvent.publish = 0 := by
  have hfail2 : ∀ o ∈ (List.range (retryCount + 1)).map oc,
      o ≠ AttemptOutcome.goodResponse := by
    intro o ho
    simp only [List.mem_map, List.mem_range] at ho
    obtain ⟨i, hi, rfl⟩ := ho
    exact hfail i (by omega)
  obtain ⟨h1, h2, h3⟩ := runAttempts_all_fail _ hfail2
  have hlen : ((List.range (retryCount + 1)).map oc).length = retryCount + 1 := by simp
  refine ⟨?_, ?_, h3, ?_⟩
  · rw [fetcherWorkerEvents, h1, hlen]
  · rw [fetcherWorkerEvents, h2, hlen]
    omega
  · rw [List.count_eq_zero]
    intro hmem
    rcases h3 _ hmem with h | h <;> exact FetchEvent.noConfusion h

/-- Witness for fetcher_worker_all_attempts_fail at the repository's
configuration (NewFetcher is called with retries = 3) and attempts that all
fail with a transport error. -/
theorem fetcher_worker_all_attempts_fail_witness :
    (∀ i ≤ 3, (fun _ => AttemptOutcome.transportError) i ≠ AttemptOutcome.goodResponse) ∧
    ((fetcherWorkerEvents 3 (fun _ => AttemptOutcome.transportError)).count
        FetchEvent.errRec = 3 + 1 ∧
     (fetcherWorkerEvents 3 (fun _ => AttemptOutcome.transportError)).count
        (FetchEvent.sleep 1) = 3 ∧
     (∀ e ∈ fetcherWorkerEvents 3 (fun _ => AttemptOutcome.transportError),
        e = FetchEvent.errRec ∨ e = FetchEvent.sleep 1) ∧
     (fetcherWorkerEvents 3 (fun _ => AttemptOutcome.transportError)).count
        FetchEvent.publish = 0) :=
  ⟨by decide,
   fetcher_worker_all_attempts_fail 3 (fun _ => AttemptOutcome.transportError) (by decide)⟩

/-- C7: the five fixture-table mappings of crawler_test.go quoted by the
specification, with seed https://example.com: a bare host with trailing slash
normalizes to the bare canonical host, a relative path resolves against the
seed, a fragment resolves to the seed itself, and a subdomain or foreign
domain yields the out-of-scope empty result.  (The remaining six rows of the
table are proved as examples after the cleanUrl definition above.) -/
theorem cleanUrl_fixture_table :
    cleanUrl seedEx (lit ("example.com/")) = some (lit ("https://example.com")) ∧
    cleanUrl seedEx (lit ("/relative/path")) = some (lit ("https://example.com/relative/path")) ∧
    cleanUrl seedEx (lit ("#fragment")) = some (lit ("https://example.com")) ∧
    cleanUrl seedEx (lit ("subdomain.example.com/")) = some [] ∧
    cleanUrl seedEx (lit ("google.com")) = some [] := by decide

/-! ## Character facts -/

theorem isUpper_iff {c : Char} : c.isUpper = true ↔ 65 ≤ c.toNat ∧ c.toNat ≤ 90 := by
  unfold Char.isUpper
  simp only [Bool.and_eq_true, decide_eq_true_eq]
  exact Iff.rfl

theorem isLower_iff {c : Char} : c.isLower = true ↔ 97 ≤ c.toNat ∧ c.toNat ≤ 122 := by
  unfold Char.isLower
  simp only [Bool.and_eq_true, decide_eq_true_eq]
  exact Iff.rfl

theorem isDigit_iff {c : Char} : c.isDigit = true ↔ 48 ≤ c.toNat ∧ c.toNat ≤ 57 := by
  unfold Char.isDigit
  simp only [Bool.and_eq_true, decide_eq_true_eq]
  exact Iff.rfl

theorem isAlpha_iff {c : Char} :
    c.isAlpha = true ↔ (65 ≤ c.toNat ∧ c.toNat ≤ 90) ∨ (97 ≤ c.toNat ∧ c.toNat ≤ 122) := by
  unfold Char.isAlpha
  simp only [Bool.or_eq_true, isUpper_iff, isLower_iff]

theorem char_toNat_ofNat {n : Nat} (h : n.isValidChar) : (Char.ofNat n).toNat = n := by
  unfold Char.ofNat
  rw [dif_pos h]
  unfold Char.ofNatAux Char.toNat
  simp [UInt32.toNat]

theorem char_eq_iff_toNat {c d : Char} : c = d ↔ c.toNat = d.toNat :=
  ⟨fun h => by rw [h], fun h => Char.ext (UInt32.ext h)⟩

theorem toLower_toNat (c : Char) :
    c.toLower.toNat = if 65 ≤ c.toNat ∧ c.toNat ≤ 90 then c.toNat + 32 else c.toNat := by
  have he : c.toLower = if 65 ≤ c.toNat ∧ c.toNat ≤ 90 then Char.ofNat (c.toNat + 32) else c := rfl
  rw [he]
  split
  · rename_i h
    refine char_toNat_ofNat ?_
    unfold Nat.isValidChar
    omega
  · rfl

theorem isSchemeChar_iff {c : Char} : isSchemeChar c = true ↔
    (65 ≤ c.toNat ∧ c.toNat ≤ 90) ∨ (97 ≤ c.toNat ∧ c.toNat ≤ 122) ∨
    (48 ≤ c.toNat ∧ c.toNat ≤ 57) ∨ c.toNat = 43 ∨ c.toNat = 45 ∨ c.toNat = 46 := by
  have h1 : ('+' : Char).toNat = 43 := by decide
  have h2 : ('-' : Char).toNat = 45 := by decide
  have h3 : ('.' : Char).toNat = 46 := by decide
  unfold isSchemeChar
  simp only [Bool.or_eq_true, isAlpha_iff, isDigit_iff, beq_iff_eq, char_eq_iff_toNat, h1, h2, h3]
  tauto

theorem isSchemeChar_toLower {c : Char} (h : isSchemeChar c = true) :
    isSchemeChar c.toLower = true := by
  rw [isSchemeChar_iff] at h ⊢
  rw [toLower_toNat]
  split <;> omega

theorem toLower_alpha {c : Char} (h : c.isAlpha = true) : c.toLower.isAlpha = true := by
  rw [isAlpha_iff] at h ⊢
  rw [toLower_toNat]
  split <;> omega

theorem toLower_ne_colon {c : Char} (h : c ≠ ':') : c.toLower ≠ ':' := by
  intro he
  have h58 : (':' : Char).toNat = 58 := by decide
  rw [char_eq_iff_toNat, toLower_toNat, h58] at he
  revert he
  split
  · omega
  · intro he
    exact h (char_eq_iff_toNat.mpr (by rw [h58]; exact he))

theorem alpha_not_space {c : Char} (h : c.isAlpha = true) : isSpaceChar c = false := by
  rw [isAlpha_iff] at h
  have h1 : (' ' : Char).toNat = 32 := by decide
  have h2 : ('\t' : Char).toNat = 9 := by decide
  have h3 : ('\n' : Char).toNat = 10 := by decide
  have h4 : ('\r' : Char).toNat = 13 := by decide
  unfold isSpaceChar
  simp only [Bool.or_eq_false_iff, beq_eq_false_iff_ne, ne_eq, char_eq_iff_toNat, h1, h2, h3, h4]
  omega

/-! ## Facts about the string-splitting primitives -/

theorem strStarts_iff {s p : Str} : strStarts s p = true ↔ ∃ r, s = p ++ r := by
  induction p generalizing s with
  | nil => simp [strStarts]
  | cons q pt ih =>
    cases s with
    | nil => simp [strStarts]
    | cons c t =>
      simp only [strStarts, Bool.and_eq_true, beq_iff_eq, ih, List.cons_append,
        List.cons.injEq]
      constructor
      · rintro ⟨rfl, r, rfl⟩
        exact ⟨r, rfl, rfl⟩
      · rintro ⟨r, rfl, rfl⟩
        exact ⟨rfl, r, rfl⟩

theorem strStarts_append (p r : Str) : strStarts (p ++ r) p = true :=
  strStarts_iff.mpr ⟨r, rfl⟩

theorem cutFirstQ_eq_none {c : Char} {s : Str} : cutFirstQ c s = none ↔ c ∉ s := by
  induction s with
  | nil => simp [cutFirstQ]
  | cons x t ih =>
    by_cases hx : x = c
    · subst hx
      simp [cutFirstQ]
    · have hbx : (x == c) = false := by simp [hx]
      simp only [cutFirstQ, hbx, Bool.false_eq_true, if_false, Option.map_eq_none', ih,
        List.mem_cons]
      constructor
      · intro h hm
        rcases hm with hm | hm
        · exact hx hm.symm
        · exact h hm
      · intro h hm
        exact h (Or.inr hm)

theorem cutFirstQ_append {c : Char} {a b : Str} (h : c ∉ a) :
    cutFirstQ c (a ++ c :: b) = some (a, b) := by
  induction a with
  | nil => simp [cutFirstQ]
  | cons x t ih =>
    have hx : (x == c) = false := by
      have : x ≠ c := fun he => h (by simp [he])
      simp [this]
    have ht : c ∉ t := fun hm => h (List.mem_cons_of_mem _ hm)
    simp [cutFirstQ, hx, ih ht]

theorem cutFirstQ_some_shape {c : Char} {s bf af : Str}
    (h : cutFirstQ c s = some (bf, af)) : s = bf ++ c :: af ∧ c ∉ bf := by
  induction s generalizing bf with
  | nil => simp [cutFirstQ] at h
  | cons x t ih =>
    by_cases hx : x = c
    · subst hx
      simp only [cutFirstQ, beq_self_eq_true, if_pos, Option.some.injEq, Prod.mk.injEq] at h
      obtain ⟨rfl, rfl⟩ := h
      simp
    · have hbx : (x == c) = false := by simp [hx]
      simp only [cutFirstQ, hbx, Bool.false_eq_true, if_false, Option.map_eq_some'] at h
      obtain ⟨⟨bf1, af1⟩, hq, heq⟩ := h
      simp only [Prod.mk.injEq] at heq
      obtain ⟨hbf, rfl⟩ := heq
      obtain ⟨rfl, hnb⟩ := ih hq
      subst hbf
      refine ⟨rfl, ?_⟩
      intro hm
      rcases List.mem_cons.mp hm with hm | hm
      · exact hx hm.symm
      · exact hnb hm

theorem cutFirst_not_mem {c : Char} {s : Str} (h : c ∉ s) : cutFirst c s = (s, []) := by
  rw [cutFirst, cutFirstQ_eq_none.mpr h]
  rfl

theorem cutFirst_append {c : Char} {a b : Str} (h : c ∉ a) :
    cutFirst c (a ++ c :: b) = (a, b) := by
  rw [cutFirst, cutFirstQ_append h]
  rfl

theorem cutFirst_fst_cons (c x : Char) (t : Str) :
    (cutFirst c (x :: t)).1 = if x = c then [] else x :: (cutFirst c t).1 := by
  by_cases hx : x = c
  · subst hx
    simp [cutFirst, cutFirstQ]
  · have hbx : (x == c) = false := by simp [hx]
    rw [if_neg hx]
    unfold cutFirst
    cases hq : cutFirstQ c t with
    | none => simp [cutFirstQ, hbx, hq]
    | some p => simp [cutFirstQ, hbx, hq]

theorem cutFirst_fst_not_mem (c : Char) (s : Str) : c ∉ (cutFirst c s).1 := by
  cases hq : cutFirstQ c s with
  | none =>
    rw [cutFirst, hq]
    exact cutFirstQ_eq_none.mp hq
  | some p =>
    obtain ⟨bf, af⟩ := p
    rw [cutFirst, hq]
    exact (cutFirstQ_some_shape hq).2

theorem cutFirst_fst_sub (c : Char) (s : Str) : ∀ x ∈ (cutFirst c s).1, x ∈ s := by
  cases hq : cutFirstQ c s with
  | none =>
    rw [cutFirst, hq]
    exact fun x hx => hx
  | some p =>
    obtain ⟨bf, af⟩ := p
    rw [cutFirst, hq]
    obtain ⟨hs, -⟩ := cutFirstQ_some_shape hq
    intro x hx
    rw [hs]
    exact List.mem_append.mpr (Or.inl hx)

theorem cutFirst_snd_sub (c : Char) (s : Str) : ∀ x ∈ (cutFirst c s).2, x ∈ s := by
  cases hq : cutFirstQ c s with
  | none =>
    rw [cutFirst, hq]
    simp
  | some p =>
    obtain ⟨bf, af⟩ := p
    rw [cutFirst, hq]
    obtain ⟨hs, -⟩ := cutFirstQ_some_shape hq
    intro x hx
    rw [hs]
    exact List.mem_append.mpr (Or.inr (List.mem_cons_of_mem _ hx))

theorem spanHost_append {host p : Str} (hns : '/' ∉ host)
    (hp : p = [] ∨ ∃ t, p = '/' :: t) : spanHost (host ++ p) = (host, p) := by
  induction host with
  | nil =>
    rcases hp with rfl | ⟨t, rfl⟩ <;> simp [spanHost]
  | cons c t ih =>
    have hc : (c == '/') = false := by
      have : c ≠ '/' := fun he => hns (by simp [he])
      simp [this]
    have ht : '/' ∉ t := fun hm => hns (List.mem_cons_of_mem _ hm)
    simp [spanHost, hc, ih ht]

theorem spanHost_shape (s : Str) :
    s = (spanHost s).1 ++ (spanHost s).2 ∧ '/' ∉ (spanHost s).1 ∧
    ((spanHost s).2 = [] ∨ ∃ t, (spanHost s).2 = '/' :: t) := by
  induction s with
  | nil => simp [spanHost]
  | cons c t ih =>
    by_cases hc : c = '/'
    · subst hc
      simp [spanHost]
    · have hbc : (c == '/') = false := by simp [hc]
      obtain ⟨ih1, ih2, ih3⟩ := ih
      refine ⟨?_, ?_, ?_⟩
      · simp only [spanHost, hbc, Bool.false_eq_true, if_false]
        exact congrArg (c :: ·) ih1
      · simp only [spanHost, hbc, Bool.false_eq_true, if_false]
        intro hm
        rcases List.mem_cons.mp hm with hm | hm
        · exact hc hm.symm
        · exact ih2 hm
      · simp only [spanHost, hbc, Bool.false_eq_true, if_false]
        exact ih3

theorem splitLastColon_none {s : Str} (h : ':' ∉ s) : splitLastColon s = none := by
  rw [splitLastColon, cutFirstQ_eq_none.mpr (by simpa using h)]
  rfl

theorem splitLastColon_append {a b : Str} (hb : ':' ∉ b) :
    splitLastColon (a ++ ':' :: b) = some (a, b) := by
  rw [splitLastColon]
  have : (a ++ ':' :: b).reverse = b.reverse ++ ':' :: a.reverse := by
    simp
  rw [this, cutFirstQ_append (by simpa using hb)]
  simp

theorem splitLastColon_some {s a b : Str} (h : splitLastColon s = some (a, b)) :
    s = a ++ ':' :: b ∧ ':' ∉ b := by
  rw [splitLastColon] at h
  cases hq : cutFirstQ ':' s.reverse with
  | none => rw [hq] at h; exact Option.noConfusion h
  | some p =>
    obtain ⟨bf, af⟩ := p
    rw [hq] at h
    simp only [Option.map_some', Prod.mk.injEq, Option.some.injEq] at h
    obtain ⟨rfl, rfl⟩ := h
    obtain ⟨hs, hnb⟩ := cutFirstQ_some_shape hq
    constructor
    · have := congrArg List.reverse hs
      simpa using this
    · simpa using hnb

theorem getSchemeCore_append {sch rest : Str}
    (hchars : ∀ c ∈ sch, isSchemeChar c = true) (hnc : ':' ∉ sch) :
    getSchemeCore (sch ++ ':' :: rest) = some (sch, rest) := by
  induction sch with
  | nil => simp [getSchemeCore]
  | cons c t ih =>
    have hcc : (c == ':') = false := by
      have : c ≠ ':' := fun he => hnc (by simp [he])
      simp [this]
    have hsc := hchars c (List.mem_cons_self _ _)
    have ht := ih (fun x hx => hchars x (List.mem_cons_of_mem _ hx))
      (fun hx => hnc (List.mem_cons_of_mem _ hx))
    simp [getSchemeCore, hcc, hsc, ht]

theorem getSchemeCore_some {s a r : Str} (h : getSchemeCore s = some (a, r)) :
    s = a ++ ':' :: r ∧ ':' ∉ a ∧ ∀ c ∈ a, isSchemeChar c = true := by
  induction s generalizing a with
  | nil => simp [getSchemeCore] at h
  | cons c t ih =>
    by_cases hc : c = ':'
    · subst hc
      simp only [getSchemeCore, beq_self_eq_true, if_pos, Option.some.injEq,
        Prod.mk.injEq] at h
      obtain ⟨rfl, rfl⟩ := h
      simp
    · have hcc : (c == ':') = false := by simp [hc]
      simp only [getSchemeCore, hcc, Bool.false_eq_true, if_false] at h
      by_cases hsc : isSchemeChar c = true
      · rw [if_pos hsc] at h
        simp only [Option.map_eq_some'] at h
        obtain ⟨⟨a1, r1⟩, hq, heq⟩ := h
        simp only [Prod.mk.injEq] at heq
        obtain ⟨ha, rfl⟩ := heq
        obtain ⟨rfl, hna, hca⟩ := ih hq
        subst ha
        refine ⟨rfl, ?_, ?_⟩
        · intro hm
          rcases List.mem_cons.mp hm with hm | hm
          · exact hc hm.symm
          · exact hna hm
        · intro x hx
          rcases List.mem_cons.mp hx with hm | hm
          · rw [hm]; exact hsc
          · exact hca x hm
      · rw [if_neg hsc] at h
        exact Option.noConfusion h

theorem getScheme_append {sch rest : Str}
    (hhead : ∃ c t, sch = c :: t ∧ c.isAlpha = true)
    (hchars : ∀ c ∈ sch, isSchemeChar c = true) (hnc : ':' ∉ sch) :
    getScheme (sch ++ ':' :: rest) = some (sch.map Char.toLower, rest) := by
  obtain ⟨c, t, rfl, hca⟩ := hhead
  have hcc : (c == ':') = false := by
    have : c ≠ ':' := fun he => hnc (by simp [he])
    simp [this]
  have hcore := @getSchemeCore_append _ rest hchars hnc
  simp only [List.cons_append] at hcore ⊢
  rw [getScheme]
  simp [hcc, hca, hcore]

theorem getScheme_some {s sch rest : Str} (h : getScheme s = some (sch, rest)) :
    (sch = [] ∧ rest = s) ∨
    (∃ raw, s = raw ++ ':' :: rest ∧ sch = raw.map Char.toLower ∧
      (∃ c t, raw = c :: t ∧ c.isAlpha = true) ∧
      (∀ c ∈ raw, isSchemeChar c = true) ∧ ':' ∉ raw) := by
  cases s with
  | nil =>
    simp only [getScheme, Option.some.injEq, Prod.mk.injEq] at h
    obtain ⟨rfl, rfl⟩ := h
    exact Or.inl ⟨rfl, rfl⟩
  | cons c t =>
    rw [getScheme] at h
    by_cases hc : (c == ':') = true
    · rw [if_pos hc] at h
      exact Option.noConfusion h
    · rw [if_neg hc] at h
      by_cases ha : c.isAlpha = true
      · rw [ha] at h
        simp only [Bool.not_true, Bool.false_eq_true, if_false] at h
        cases hq : getSchemeCore (c :: t) with
        | none =>
          rw [hq] at h
          simp only [Option.some.injEq, Prod.mk.injEq] at h
          obtain ⟨rfl, rfl⟩ := h
          exact Or.inl ⟨rfl, rfl⟩
        | some p =>
          obtain ⟨a, r⟩ := p
          rw [hq] at h
          simp only [Option.some.injEq, Prod.mk.injEq] at h
          obtain ⟨rfl, rfl⟩ := h
          obtain ⟨hs, hna, hca⟩ := getSchemeCore_some hq
          refine Or.inr ⟨a, hs, rfl, ?_, hca, hna⟩
          cases a with
          | nil =>
            exfalso
            simp only [List.nil_append] at hs
            have : c = ':' := by
              have := List.cons.inj hs
              exact this.1
            simp [this] at hc
          | cons a0 a1 =>
            have := (List.cons.inj hs).1
            exact ⟨a0, a1, rfl, by rw [← this]; exact ha⟩
      · have hna : (!c.isAlpha) = true := by
          simp only [Bool.not_eq_true'] at ha ⊢
          simpa using ha
        rw [if_pos hna] at h
        simp only [Option.some.injEq, Prod.mk.injEq] at h
        obtain ⟨rfl, rfl⟩ := h
        exact Or.inl ⟨rfl, rfl⟩

/-! ## Trim lemmas -/

theorem trimLeft_cons {c : Char} {s : Str} (h : isSpaceChar c = false) :
    trimLeft (c :: s) = c :: s := by
  simp [trimLeft, List.dropWhile_cons, h]

theorem strTrim_cons {c : Char} {s : Str} (h : isSpaceChar c = false) :
    strTrim (c :: s) = trimRight (c :: s) := by
  rw [strTrim, trimLeft_cons h]

theorem trimRight_cons_not_space {c : Char} (hc : isSpaceChar c = false) (s : Str) :
    trimRight (c :: s) = c :: trimRight s := by
  unfold trimRight
  rw [show (c :: s).reverse = s.reverse ++ [c] by simp, List.dropWhile_append]
  by_cases he : (s.reverse.dropWhile isSpaceChar).isEmpty = true
  · rw [if_pos he]
    rw [List.isEmpty_iff] at he
    simp [List.dropWhile_cons, hc, he]
  · rw [if_neg he]
    simp

theorem trimRight_eq_self {s : Str} (h : ∀ c ∈ s, isSpaceChar c = false) :
    trimRight s = s := by
  induction s with
  | nil => rfl
  | cons c t ih =>
    rw [trimRight_cons_not_space (h c (List.mem_cons_self _ _))]
    rw [ih (fun x hx => h x (List.mem_cons_of_mem _ hx))]

theorem trimRight_append_right {a b : Str} (h : trimRight b ≠ []) :
    trimRight (a ++ b) = a ++ trimRight b := by
  unfold trimRight at h ⊢
  rw [List.reverse_append, List.dropWhile_append]
  by_cases he : (b.reverse.dropWhile isSpaceChar).isEmpty = true
  · rw [List.isEmpty_iff] at he
    rw [he] at h
    simp at h
  · rw [if_neg he]
    simp

/-! ## Re-parsing a reconstructed URL -/

/-- The shape facts under which scheme ++ "://" ++ host ++ path ++ query
re-parses into exactly those components.  Every in-scope output of cleanUrl
satisfies them. -/
structure ReconOk (sch host p q : Str) : Prop where
  schHead : ∃ c t, sch = c :: t ∧ c.isAlpha = true
  schChars : ∀ c ∈ sch, isSchemeChar c = true
  schNoColon : ':' ∉ sch
  hostNoSlash : '/' ∉ host
  hostNoQm : '?' ∉ host
  hostNoHash : '#' ∉ host
  hostPort : parseHost host = some host
  pathHead : p = [] ∨ ∃ t, p = '/' :: t
  pathNoQm : '?' ∉ p
  pathNoHash : '#' ∉ p
  qShape : q = [] ∨ ∃ t, q = '?' :: t
  qNoHash : '#' ∉ q

theorem notMem_sch_of_class {sch : Str} (hchars : ∀ c ∈ sch, isSchemeChar c = true)
    {d : Char} (hd : isSchemeChar d = false) : d ∉ sch := by
  intro hm
  have h1 := hchars _ hm
  rw [hd] at h1
  exact Bool.noConfusion h1

theorem parse_recon {sch host p q : Str} (hk : ReconOk sch host p q) :
    parseGoUrl (sch ++ lit ("://") ++ host ++ p ++ q) =
      some ⟨sch.map Char.toLower, host, p, q.drop 1⟩ := by
  obtain ⟨c0, t0, hsch, hca⟩ := hk.schHead
  have hs1 : '#' ∉ sch := notMem_sch_of_class hk.schChars (by decide)
  have hS : sch ++ lit ("://") ++ host ++ p ++ q =
      sch ++ ':' :: ('/' :: '/' :: (host ++ (p ++ q))) := by
    simp [lit]
  rw [hS]
  have hnoHash : '#' ∉ sch ++ ':' :: ('/' :: '/' :: (host ++ (p ++ q))) := by
    intro hm
    simp only [List.mem_append, List.mem_cons] at hm
    rcases hm with hm | hm | hm | hm | hm | hm
    · exact hs1 hm
    · exact absurd hm (by decide)
    · exact absurd hm (by decide)
    · exact absurd hm (by decide)
    · exact hk.hostNoHash hm
    · exact absurd hm (by simp [hk.pathNoHash, hk.qNoHash])
  unfold parseGoUrl
  rw [cutFirst_not_mem hnoHash]
  dsimp only
  rw [getScheme_append ⟨c0, t0, hsch, hca⟩ hk.schChars hk.schNoColon]
  dsimp only
  have hmapNe : sch.map Char.toLower ≠ [] := by rw [hsch]; simp
  have hq2 : '?' ∉ ('/' : Char) :: '/' :: (host ++ p) := by
    intro hm
    simp only [List.mem_cons, List.mem_append] at hm
    rcases hm with hm | hm | hm | hm
    · exact absurd hm (by decide)
    · exact absurd hm (by decide)
    · exact hk.hostNoQm hm
    · exact hk.pathNoQm hm
  rcases hk.qShape with rfl | ⟨qt, rfl⟩
  · simp only [List.append_nil]
    rw [cutFirst_not_mem hq2]
    dsimp only
    have hsp := spanHost_append hk.hostNoSlash hk.pathHead
    simp [strStarts, lit, hmapNe, List.drop, hsp, hk.hostPort]
  · have hsplit : ('/' : Char) :: '/' :: (host ++ (p ++ '?' :: qt)) =
        (('/' : Char) :: '/' :: (host ++ p)) ++ '?' :: qt := by
      simp
    rw [hsplit, cutFirst_append hq2]
    dsimp only
    have hsp := spanHost_append hk.hostNoSlash hk.pathHead
    simp [strStarts, lit, hmapNe, List.drop, hsp, hk.hostPort]

theorem parseHost_some {a x : Str} (h : parseHost a = some x) : x = a := by
  unfold parseHost at h
  cases hsp : splitLastColon a with
  | none =>
    rw [hsp] at h
    injection h with h
    exact h.symm
  | some p =>
    simp only [hsp] at h
    by_cases hd : p.2.all Char.isDigit = true
    · rw [if_pos hd] at h
      injection h with h
      exact h.symm
    · rw [if_neg hd] at h
      exact Option.noConfusion h

theorem strStarts_cutFirst_fst {c : Char} {s pre : Str} (hs : strStarts s pre = true)
    (hc : c ∉ pre) : strStarts (cutFirst c s).1 pre = true := by
  induction pre generalizing s with
  | nil => simp [strStarts]
  | cons d dt ih =>
    cases s with
    | nil => simp [strStarts] at hs
    | cons x t =>
      simp only [strStarts, Bool.and_eq_true, beq_iff_eq] at hs
      obtain ⟨rfl, hrest⟩ := hs
      rw [cutFirst_fst_cons]
      have hxd : x ≠ c := fun he => hc (by simp [he])
      rw [if_neg hxd]
      simp only [strStarts, beq_self_eq_true, Bool.true_and]
      exact ih hrest (fun hm => hc (List.mem_cons_of_mem _ hm))

theorem raw_starts_http {raw rest : Str}
    (hstart : strStarts (raw ++ ':' :: rest) (lit ("http")) = true)
    (hnc : ':' ∉ raw) : strStarts raw (lit ("http")) = true := by
  have hlit : lit ("http") = ['h', 't', 't', 'p'] := rfl
  rw [hlit] at hstart ⊢
  cases raw with
  | nil => simp [strStarts] at hstart
  | cons a r1 =>
    cases r1 with
    | nil => simp_all [strStarts]
    | cons b r2 =>
      cases r2 with
      | nil => simp_all [strStarts]
      | cons c r3 =>
        cases r3 with
        | nil => simp_all [strStarts]
        | cons d r4 => simp_all [strStarts]

/-- The shape facts that hold of every successful url.Parse result. -/
structure ParseFacts (s : Str) (u : GoUrl) : Prop where
  hostNoHash : '#' ∉ u.host
  hostNoQm : '?' ∉ u.host
  hostNoSlash : '/' ∉ u.host
  pathNoHash : '#' ∉ u.path
  pathNoQm : '?' ∉ u.path
  qNoHash : '#' ∉ u.rawQuery
  hostPort : parseHost u.host = some u.host
  pathShape : u.host ≠ [] → (u.path = [] ∨ ∃ t, u.path = '/' :: t)
  schemeShape : u.scheme = [] ∨ ∃ raw, u.scheme = raw.map Char.toLower ∧
    (∃ c t, raw = c :: t ∧ c.isAlpha = true) ∧ (∀ c ∈ raw, isSchemeChar c = true) ∧
    ':' ∉ raw ∧ ∃ r2, (cutFirst '#' s).1 = raw ++ ':' :: r2

theorem parseGoUrl_facts {s : Str} {u : GoUrl} (h : parseGoUrl s = some u) :
    ParseFacts s u := by
  unfold parseGoUrl at h
  dsimp only at h
  cases hgs : getScheme (cutFirst '#' s).1 with
  | none =>
    rw [hgs] at h
    exact Option.noConfusion h
  | some pr =>
    obtain ⟨sch, rest0⟩ := pr
    rw [hgs] at h
    dsimp only at h
    have hbfHash : '#' ∉ (cutFirst '#' s).1 := cutFirst_fst_not_mem '#' s
    have hrest0Hash : '#' ∉ rest0 := by
      rcases getScheme_some hgs with ⟨-, rfl⟩ | ⟨raw, hbf, -, -, -, -⟩
      · exact hbfHash
      · intro hm
        exact hbfHash (by rw [hbf]; simp [hm])
    have hschemeShape : sch = [] ∨ ∃ raw, sch = raw.map Char.toLower ∧
        (∃ c t, raw = c :: t ∧ c.isAlpha = true) ∧ (∀ c ∈ raw, isSchemeChar c = true) ∧
        ':' ∉ raw ∧ ∃ r2, (cutFirst '#' s).1 = raw ++ ':' :: r2 := by
      rcases getScheme_some hgs with ⟨rfl, -⟩ | ⟨raw, hbf, hm, hh, hc, hn⟩
      · exact Or.inl rfl
      · exact Or.inr ⟨raw, hm, hh, hc, hn, rest0, hbf⟩
    have hrestQm : '?' ∉ (cutFirst '?' rest0).1 := cutFirst_fst_not_mem '?' rest0
    have hrestHash : '#' ∉ (cutFirst '?' rest0).1 := by
      intro hm
      exact hrest0Hash (cutFirst_fst_sub '?' rest0 _ hm)
    have hqHash : '#' ∉ (cutFirst '?' rest0).2 := by
      intro hm
      exact hrest0Hash (cutFirst_snd_sub '?' rest0 _ hm)
    split at h
    · -- rest does not start with "/"
      split at h
      · -- opaque: scheme non-empty
        injection h with h
        subst h
        exact ⟨by simp, by simp, by simp, by simp, by simp, hqHash, rfl,
          fun hne => absurd rfl hne, hschemeShape⟩
      · split at h
        · exact Option.noConfusion h
        · injection h with h
          subst h
          exact ⟨by simp, by simp, by simp, hrestHash, hrestQm, hqHash, rfl,
            fun hne => absurd rfl hne, Or.inl rfl⟩
    · -- rest starts with "/"
      split at h
      · -- authority branch
        cases hph : parseHost (spanHost ((cutFirst '?' rest0).1.drop 2)).1 with
        | none =>
          rw [hph] at h
          exact Option.noConfusion h
        | some host =>
          rw [hph] at h
          injection h with h
          subst h
          obtain ⟨hsplit, hnoslash, hshape⟩ := spanHost_shape ((cutFirst '?' rest0).1.drop 2)
          have hhost := parseHost_some hph
          subst hhost
          have hmemHost : ∀ x ∈ (spanHost ((cutFirst '?' rest0).1.drop 2)).1,
              x ∈ (cutFirst '?' rest0).1 := by
            intro x hx
            have : x ∈ (cutFirst '?' rest0).1.drop 2 := by
              rw [hsplit]
              exact List.mem_append.mpr (Or.inl hx)
            exact List.mem_of_mem_drop this
          have hmemPath : ∀ x ∈ (spanHost ((cutFirst '?' rest0).1.drop 2)).2,
              x ∈ (cutFirst '?' rest0).1 := by
            intro x hx
            have : x ∈ (cutFirst '?' rest0).1.drop 2 := by
              rw [hsplit]
              exact List.mem_append.mpr (Or.inr hx)
            exact List.mem_of_mem_drop this
          refine ⟨?_, ?_, hnoslash, ?_, ?_, hqHash, hph, fun _ => hshape, hschemeShape⟩
          · intro hm; exact hrestHash (hmemHost _ hm)
          · intro hm; exact hrestQm (hmemHost _ hm)
          · intro hm; exact hrestHash (hmemPath _ hm)
          · intro hm; exact hrestQm (hmemPath _ hm)
      · injection h with h
        subst h
        exact ⟨by simp, by simp, by simp, hrestHash, hrestQm, hqHash, rfl,
          fun hne => absurd rfl hne, hschemeShape⟩

/-! ## Seed well-formedness and hostname structure -/

/-- A character a real seed hostname consists of: no URL delimiters, no colon
and no whitespace. -/
def goodHostChar (c : Char) : Bool :=
  !(c == '/' || c == '?' || c == '#' || c == ':' || isSpaceChar c)

/-- A well-formed seed: the CLI-supplied domain parsed to a non-empty
hostname made of ordinary hostname characters. -/
structure SeedWF (seed : Seed) : Prop where
  hostNe : seed.host ≠ []
  hostChars : ∀ c ∈ seed.host, goodHostChar c = true

theorem not_space_of_toNat {c : Char} (h32 : c.toNat ≠ 32) (h9 : c.toNat ≠ 9)
    (h10 : c.toNat ≠ 10) (h13 : c.toNat ≠ 13) : isSpaceChar c = false := by
  have h1 : (' ' : Char).toNat = 32 := by decide
  have h2 : ('\t' : Char).toNat = 9 := by decide
  have h3 : ('\n' : Char).toNat = 10 := by decide
  have h4 : ('\r' : Char).toNat = 13 := by decide
  unfold isSpaceChar
  simp only [Bool.or_eq_false_iff, beq_eq_false_iff_ne, ne_eq, char_eq_iff_toNat, h1, h2, h3, h4]
  exact ⟨⟨⟨h32, h9⟩, h10⟩, h13⟩

theorem schemeChar_not_space {c : Char} (h : isSchemeChar c = true) :
    isSpaceChar c = false := by
  rw [isSchemeChar_iff] at h
  refine not_space_of_toNat ?_ ?_ ?_ ?_ <;> omega

theorem goodHostChar_facts {c : Char} (h : goodHostChar c = true) :
    c ≠ '/' ∧ c ≠ '?' ∧ c ≠ '#' ∧ c ≠ ':' ∧ isSpaceChar c = false := by
  unfold goodHostChar at h
  simp only [Bool.not_eq_true', Bool.or_eq_false_iff, beq_eq_false_iff_ne, ne_eq] at h
  exact ⟨h.1.1.1.1, h.1.1.1.2, h.1.1.2, h.1.2, h.2⟩

theorem digit_facts {c : Char} (h : c.isDigit = true) :
    c ≠ '/' ∧ c ≠ '?' ∧ c ≠ '#' ∧ isSpaceChar c = false := by
  rw [isDigit_iff] at h
  have h1 : ('/' : Char).toNat = 47 := by decide
  have h2 : ('?' : Char).toNat = 63 := by decide
  have h3 : ('#' : Char).toNat = 35 := by decide
  refine ⟨?_, ?_, ?_, not_space_of_toNat (by omega) (by omega) (by omega) (by omega)⟩ <;>
    (intro he; rw [char_eq_iff_toNat] at he; omega)

theorem hostname_structure {h H : Str} (hc : ':' ∉ H)
    (hph : parseHost h = some h) (hh : hostname h = H) :
    h = H ∨ ∃ port, h = H ++ ':' :: port ∧ port.all Char.isDigit = true := by
  unfold hostname at hh
  unfold parseHost at hph
  cases hsp : splitLastColon h with
  | none =>
    rw [hsp] at hh
    exact Or.inl hh
  | some p =>
    obtain ⟨a, b⟩ := p
    simp only [hsp] at hh hph
    by_cases hd : b.all Char.isDigit = true
    · rw [if_pos hd] at hh
      obtain ⟨hshape, -⟩ := splitLastColon_some hsp
      exact Or.inr ⟨b, by rw [hshape, hh], hd⟩
    · rw [if_neg hd] at hph
      exact Option.noConfusion hph

theorem host_chars_good {seed : Seed} (hsw : SeedWF seed) {h : Str}
    (hs : h = seed.host ∨ ∃ port, h = seed.host ++ ':' :: port ∧ port.all Char.isDigit = true) :
    (∀ c ∈ h, isSpaceChar c = false) ∧ h ≠ [] := by
  rcases hs with rfl | ⟨port, rfl, hport⟩
  · exact ⟨fun c hc => (goodHostChar_facts (hsw.hostChars c hc)).2.2.2.2, hsw.hostNe⟩
  · constructor
    · intro c hc
      simp only [List.mem_append, List.mem_cons] at hc
      rcases hc with hc | hc | hc
      · exact (goodHostChar_facts (hsw.hostChars c hc)).2.2.2.2
      · rw [hc]; decide
      · exact (digit_facts (by simpa using List.all_eq_true.mp hport c hc)).2.2.2
    · cases hse : seed.host with
      | nil => exact absurd hse hsw.hostNe
      | cons a t => simp [hse]

theorem seed_host_no_colon {seed : Seed} (hsw : SeedWF seed) : ':' ∉ seed.host :=
  fun hm => (goodHostChar_facts (hsw.hostChars _ hm)).2.2.2.1 rfl

/-! ## cleanUrl output shape and re-cleaning -/

theorem cleanUrl_some_shape {seed : Seed} {raw l : Str}
    (h : cleanUrl seed raw = some l) (hne : l ≠ []) :
    ∃ u : GoUrl, parseGoUrl (prepStages seed raw) = some u ∧
      hostname u.host = seed.host ∧ l = reconUrl u := by
  unfold cleanUrl at h
  cases hp : parseGoUrl (prepStages seed raw) with
  | none => rw [hp] at h; exact Option.noConfusion h
  | some u =>
    simp only [hp] at h
    by_cases hh : hostname u.host ≠ seed.host
    · rw [if_pos hh] at h
      injection h with h
      exact absurd h.symm hne
    · rw [if_neg hh] at h
      injection h with h
      exact ⟨u, rfl, not_ne_iff.mp hh, h.symm⟩

theorem prepStages_starts_http (seed : Seed) (raw : Str) :
    strStarts (prepStages seed raw) (lit ("http")) = true := by
  unfold prepStages schemeStage
  by_cases hs : strStarts (loopbackStage (relStage seed (fragStage seed (strTrim raw))))
      (lit ("http")) = true
  · simp [hs]
  · simp only [Bool.not_eq_true] at hs
    rw [hs]
    simp only [Bool.not_false, if_pos]
    have : lit ("https://") ++ loopbackStage (relStage seed (fragStage seed (strTrim raw))) =
        lit ("http") ++ (lit ("s://") ++ loopbackStage (relStage seed (fragStage seed (strTrim raw)))) := rfl
    rw [this]
    exact strStarts_append _ _

theorem trimRight_subset {s : Str} : ∀ x ∈ trimRight s, x ∈ s := by
  intro x hx
  unfold trimRight at hx
  rw [List.mem_reverse] at hx
  have hsub : List.Sublist (List.dropWhile isSpaceChar s.reverse) s.reverse :=
    List.dropWhile_sublist _
  have := hsub.mem hx
  simpa using this

theorem prepStages_id_of_http {seed : Seed} {s : Str}
    (hs : strStarts s (lit ("http")) = true) :
    prepStages seed s = strTrim s := by
  obtain ⟨r, hr⟩ := strStarts_iff.mp hs
  have hlit : lit ("http") = ['h', 't', 't', 'p'] := rfl
  rw [hlit] at hr
  subst hr
  have htrim : strTrim ('h' :: 't' :: 't' :: 'p' :: r) =
      'h' :: 't' :: 't' :: 'p' :: trimRight r := by
    rw [strTrim, trimLeft_cons (by decide), trimRight_cons_not_space (by decide),
      trimRight_cons_not_space (by decide), trimRight_cons_not_space (by decide),
      trimRight_cons_not_space (by decide)]
  unfold prepStages
  simp only [List.cons_append, List.nil_append]
  rw [htrim]
  have h1 : fragStage seed ('h' :: 't' :: 't' :: 'p' :: trimRight r) =
      'h' :: 't' :: 't' :: 'p' :: trimRight r := by
    unfold fragStage
    simp [strStarts, lit]
  have h2 : relStage seed ('h' :: 't' :: 't' :: 'p' :: trimRight r) =
      'h' :: 't' :: 't' :: 'p' :: trimRight r := by
    unfold relStage
    simp [strStarts, lit]
  have hstar : strStarts ('h' :: 't' :: 't' :: 'p' :: trimRight r) (lit ("http")) = true := by
    simp [strStarts, lit]
  have h3 : loopbackStage ('h' :: 't' :: 't' :: 'p' :: trimRight r) =
      'h' :: 't' :: 't' :: 'p' :: trimRight r := by
    unfold loopbackStage
    rw [hstar]
    simp
  have h4 : schemeStage ('h' :: 't' :: 't' :: 'p' :: trimRight r) =
      'h' :: 't' :: 't' :: 'p' :: trimRight r := by
    unfold schemeStage
    rw [hstar]
    simp
  rw [h1, h2, h3, h4]

theorem strTrim_recon {sch host p q : Str}
    (hschHead : ∃ c t, sch = c :: t ∧ c.isAlpha = true)
    (hschNoSpace : ∀ c ∈ sch, isSpaceChar c = false)
    (hhostNoSpace : ∀ c ∈ host, isSpaceChar c = false)
    (hp : p = [] ∨ ∃ t, p = '/' :: t)
    (hq : q = [] ∨ ∃ t, q = '?' :: t) :
    ∃ p2 q2, strTrim (sch ++ lit ("://") ++ host ++ p ++ q) =
        sch ++ lit ("://") ++ host ++ p2 ++ q2 ∧
      (p2 = [] ∨ ∃ t2, p2 = '/' :: t2) ∧ (∀ x ∈ p2, x ∈ p) ∧
      (q2 = [] ∨ ∃ t2, q2 = '?' :: t2) ∧ (∀ x ∈ q2, x ∈ q) := by
  obtain ⟨c0, t0, hsch, hca⟩ := hschHead
  have hhead : strTrim (sch ++ lit ("://") ++ host ++ p ++ q) =
      trimRight (sch ++ lit ("://") ++ host ++ p ++ q) := by
    rw [hsch]
    simp only [List.cons_append, List.append_assoc]
    exact strTrim_cons (alpha_not_space hca)
  rcases hq with rfl | ⟨qt, rfl⟩
  · rcases hp with rfl | ⟨pt, rfl⟩
    · refine ⟨[], [], ?_, Or.inl rfl, by simp, Or.inl rfl, by simp⟩
      rw [hhead]
      simp only [List.append_nil]
      apply trimRight_eq_self
      intro c hc
      simp only [List.mem_append] at hc
      rcases hc with (hc | hc) | hc
      · exact hschNoSpace c hc
      · have hlit : lit ("://") = [':', '/', '/'] := rfl
        rw [hlit] at hc
        simp only [List.mem_cons, List.not_mem_nil, or_false] at hc
        rcases hc with rfl | rfl | rfl <;> decide
      · exact hhostNoSpace c hc
    · have htp : trimRight ('/' :: pt) = '/' :: trimRight pt :=
        trimRight_cons_not_space (by decide) pt
      have hne : trimRight ('/' :: pt) ≠ [] := by rw [htp]; simp
      refine ⟨'/' :: trimRight pt, [], ?_, Or.inr ⟨trimRight pt, rfl⟩, ?_, Or.inl rfl, by simp⟩
      · rw [hhead]
        simp only [List.append_nil]
        rw [trimRight_append_right hne, htp]
      · intro x hx
        rcases List.mem_cons.mp hx with hx | hx
        · simp [hx]
        · exact List.mem_cons_of_mem _ (trimRight_subset _ hx)
  · have htq : trimRight ('?' :: qt) = '?' :: trimRight qt :=
      trimRight_cons_not_space (by decide) qt
    have hne : trimRight ('?' :: qt) ≠ [] := by rw [htq]; simp
    refine ⟨p, '?' :: trimRight qt, ?_, hp, fun x hx => hx,
      Or.inr ⟨trimRight qt, rfl⟩, ?_⟩
    · rw [hhead]
      rw [trimRight_append_right hne, htq]
    · intro x hx
      rcases List.mem_cons.mp hx with hx | hx
      · simp [hx]
      · exact List.mem_cons_of_mem _ (trimRight_subset _ hx)

/-! ## Well-behaved parsed URLs: the reconstruction re-parses to the same host -/

/-- The facts about a parsed URL that make cleanUrl's reconstruction of it
re-parse with the same host. -/
structure UrlGood (u : GoUrl) : Prop where
  schHead : ∃ c t, reconScheme u = c :: t ∧ c.isAlpha = true
  schChars : ∀ c ∈ reconScheme u, isSchemeChar c = true
  schNoColon : ':' ∉ reconScheme u
  hostNoSlash : '/' ∉ u.host
  hostNoQm : '?' ∉ u.host
  hostNoHash : '#' ∉ u.host
  hostPort : parseHost u.host = some u.host
  pathShape : reconPath u = [] ∨ ∃ t, reconPath u = '/' :: t
  pathNoQm : '?' ∉ reconPath u
  pathNoHash : '#' ∉ reconPath u
  qShape : reconQuery u = [] ∨ ∃ t, reconQuery u = '?' :: t
  qNoHash : '#' ∉ reconQuery u

theorem parse_reconUrl {u : GoUrl} (hg : UrlGood u) :
    parseGoUrl (reconUrl u) =
      some ⟨(reconScheme u).map Char.toLower, u.host, reconPath u, (reconQuery u).drop 1⟩ :=
  parse_recon ⟨hg.schHead, hg.schChars, hg.schNoColon, hg.hostNoSlash, hg.hostNoQm,
    hg.hostNoHash, hg.hostPort, hg.pathShape, hg.pathNoQm, hg.pathNoHash,
    hg.qShape, hg.qNoHash⟩

theorem reconScheme_ne (u : GoUrl) : reconScheme u ≠ [] := by
  unfold reconScheme
  split
  · split <;> simp [lit]
  · assumption

theorem reconUrl_ne (u : GoUrl) : reconUrl u ≠ [] := by
  have h := reconScheme_ne u
  unfold reconUrl
  intro hc
  simp only [List.append_eq_nil] at hc
  exact h hc.1.1.1.1

theorem scheme_toLower_good {sch : Str}
    (hhead : ∃ c t, sch = c :: t ∧ c.isAlpha = true)
    (hchars : ∀ c ∈ sch, isSchemeChar c = true) (hnc : ':' ∉ sch) :
    (∃ c t, sch.map Char.toLower = c :: t ∧ c.isAlpha = true) ∧
    (∀ c ∈ sch.map Char.toLower, isSchemeChar c = true) ∧
    ':' ∉ sch.map Char.toLower := by
  obtain ⟨c, t, rfl, hca⟩ := hhead
  refine ⟨⟨c.toLower, t.map Char.toLower, by simp, toLower_alpha hca⟩, ?_, ?_⟩
  · intro x hx
    rw [List.mem_map] at hx
    obtain ⟨y, hy, rfl⟩ := hx
    exact isSchemeChar_toLower (hchars y hy)
  · intro hx
    rw [List.mem_map] at hx
    obtain ⟨y, hy, hly⟩ := hx
    exact toLower_ne_colon (fun he => hnc (he ▸ hy)) hly

theorem reconScheme_good {seed : Seed} {raw : Str} {u : GoUrl}
    (hp : parseGoUrl (prepStages seed raw) = some u) :
    (∃ c t, reconScheme u = c :: t ∧ c.isAlpha = true) ∧
    (∀ c ∈ reconScheme u, isSchemeChar c = true) ∧
    ':' ∉ reconScheme u ∧
    strStarts (reconScheme u) (lit ("http")) = true := by
  have pf := parseGoUrl_facts hp
  have hhttp := prepStages_starts_http seed raw
  rcases pf.schemeShape with hsch | ⟨rawS, hmap, hrawHead, hchars, hnc, r2, hbf⟩
  · have he : reconScheme u =
        (if u.host = lit ("127.0.0.1") then lit ("http") else lit ("https")) := by
      unfold reconScheme
      rw [if_pos hsch]
    rw [he]
    by_cases hh : u.host = lit ("127.0.0.1")
    · rw [if_pos hh]
      exact ⟨⟨'h', ['t', 't', 'p'], rfl, by decide⟩, by decide, by decide, by decide⟩
    · rw [if_neg hh]
      exact ⟨⟨'h', ['t', 't', 'p', 's'], rfl, by decide⟩, by decide, by decide, by decide⟩
  · have hbfh : strStarts (cutFirst '#' (prepStages seed raw)).1 (lit ("http")) = true :=
      strStarts_cutFirst_fst hhttp (by decide)
    rw [hbf] at hbfh
    have hrawHttp : strStarts rawS (lit ("http")) = true := raw_starts_http hbfh hnc
    have hschNe : u.scheme ≠ [] := by
      obtain ⟨c, t, hraw, -⟩ := hrawHead
      rw [hmap, hraw]
      simp
    have hschE : reconScheme u = rawS.map Char.toLower := by
      unfold reconScheme
      rw [if_neg hschNe, hmap]
    obtain ⟨hg1, hg2, hg3⟩ := scheme_toLower_good hrawHead hchars hnc
    rw [hschE]
    refine ⟨hg1, hg2, hg3, ?_⟩
    obtain ⟨rr, hrr⟩ := strStarts_iff.mp hrawHttp
    rw [hrr, List.map_append]
    have hm4 : (lit ("http")).map Char.toLower = lit ("http") := by decide
    rw [hm4]
    exact strStarts_append _ _

theorem urlGood_of_clean {seed : Seed} (hsw : SeedWF seed) {raw : Str} {u : GoUrl}
    (hp : parseGoUrl (prepStages seed raw) = some u)
    (hh : hostname u.host = seed.host) :
    UrlGood u ∧ (∀ c ∈ u.host, isSpaceChar c = false) ∧ u.host ≠ [] ∧
    strStarts (reconScheme u) (lit ("http")) = true := by
  have pf := parseGoUrl_facts hp
  obtain ⟨hhead, hchars, hnc, hhttp⟩ := reconScheme_good hp
  have hstruct := hostname_structure (seed_host_no_colon hsw) pf.hostPort hh
  obtain ⟨hns, hne⟩ := host_chars_good hsw hstruct
  have hpath := pf.pathShape hne
  have hreconPathSub : ∀ x ∈ reconPath u, x ∈ u.path := by
    unfold reconPath
    split
    · exact fun x hx => hx
    · simp
  have hreconPathShape : reconPath u = [] ∨ ∃ t, reconPath u = '/' :: t := by
    unfold reconPath
    split
    · rename_i hcond
      rcases hpath with h0 | h0
      · exact absurd h0 hcond.1
      · exact Or.inr h0
    · exact Or.inl rfl
  have hqShape : reconQuery u = [] ∨ ∃ t, reconQuery u = '?' :: t := by
    unfold reconQuery
    split
    · exact Or.inr ⟨u.rawQuery, rfl⟩
    · exact Or.inl rfl
  have hqHash : '#' ∉ reconQuery u := by
    unfold reconQuery
    split
    · intro hm
      rcases List.mem_cons.mp hm with hm | hm
      · exact absurd hm (by decide)
      · exact pf.qNoHash hm
    · simp
  refine ⟨⟨hhead, hchars, hnc, pf.hostNoSlash, pf.hostNoQm, pf.hostNoHash, pf.hostPort,
      hreconPathShape, ?_, ?_, hqShape, hqHash⟩, hns, hne, hhttp⟩
  · intro hm
    exact pf.pathNoQm (hreconPathSub _ hm)
  · intro hm
    exact pf.pathNoHash (hreconPathSub _ hm)

theorem urlGood_mk {sch host p q : Str}
    (hhead : ∃ c t, sch = c :: t ∧ c.isAlpha = true)
    (hchars : ∀ c ∈ sch, isSchemeChar c = true) (hnc : ':' ∉ sch)
    (hhostNoSlash : '/' ∉ host) (hhostNoQm : '?' ∉ host) (hhostNoHash : '#' ∉ host)
    (hport : parseHost host = some host)
    (hpshape : p = [] ∨ ∃ t, p = '/' :: t) (hpq : '?' ∉ p) (hph : '#' ∉ p)
    (hqh : '#' ∉ q) :
    UrlGood ⟨sch, host, p, q⟩ := by
  have hschNe : sch ≠ [] := by
    obtain ⟨c, t, rfl, -⟩ := hhead
    simp
  have hschE : reconScheme ⟨sch, host, p, q⟩ = sch := by
    unfold reconScheme
    exact if_neg hschNe
  have hpathSub : ∀ x ∈ reconPath ⟨sch, host, p, q⟩, x ∈ p := by
    unfold reconPath
    split
    · exact fun x hx => hx
    · simp
  have hpathShape : reconPath ⟨sch, host, p, q⟩ = [] ∨
      ∃ t, reconPath ⟨sch, host, p, q⟩ = '/' :: t := by
    unfold reconPath
    split
    · rename_i hcond
      rcases hpshape with h0 | h0
      · exact absurd h0 hcond.1
      · exact Or.inr h0
    · exact Or.inl rfl
  have hqShape : reconQuery ⟨sch, host, p, q⟩ = [] ∨
      ∃ t, reconQuery ⟨sch, host, p, q⟩ = '?' :: t := by
    unfold reconQuery
    split
    · exact Or.inr ⟨q, rfl⟩
    · exact Or.inl rfl
  have hqHash : '#' ∉ reconQuery ⟨sch, host, p, q⟩ := by
    unfold reconQuery
    split
    · intro hm
      rcases List.mem_cons.mp hm with hm | hm
      · exact absurd hm (by decide)
      · exact hqh hm
    · simp
  rw [← hschE] at hhead hchars hnc
  exact ⟨hhead, hchars, hnc, hhostNoSlash, hhostNoQm, hhostNoHash, hport, hpathShape,
    fun hm => hpq (hpathSub _ hm), fun hm => hph (hpathSub _ hm), hqShape, hqHash⟩

theorem cleanUrl_of_good {seed : Seed} {u : GoUrl}
    (hg : UrlGood u) (hns : ∀ c ∈ u.host, isSpaceChar c = false)
    (hhttp : strStarts (reconScheme u) (lit ("http")) = true)
    (hh : hostname u.host = seed.host) :
    ∃ u2 : GoUrl, cleanUrl seed (reconUrl u) = some (reconUrl u2) ∧ UrlGood u2 ∧
      u2.host = u.host := by
  have hstart : strStarts (reconUrl u) (lit ("http")) = true := by
    obtain ⟨r, hr⟩ := strStarts_iff.mp hhttp
    unfold reconUrl
    rw [hr]
    simp only [List.append_assoc]
    exact strStarts_append _ _
  have hprep : prepStages seed (reconUrl u) = strTrim (reconUrl u) :=
    prepStages_id_of_http hstart
  have hschNoSpace : ∀ c ∈ reconScheme u, isSpaceChar c = false :=
    fun c hc => schemeChar_not_space (hg.schChars c hc)
  obtain ⟨p2, q2, htrim, hp2shape, hp2sub, hq2shape, hq2sub⟩ :=
    strTrim_recon hg.schHead hschNoSpace hns hg.pathShape hg.qShape
  have hok : ReconOk (reconScheme u) u.host p2 q2 :=
    ⟨hg.schHead, hg.schChars, hg.schNoColon, hg.hostNoSlash, hg.hostNoQm, hg.hostNoHash,
     hg.hostPort, hp2shape, fun hm => hg.pathNoQm (hp2sub _ hm),
     fun hm => hg.pathNoHash (hp2sub _ hm), hq2shape, fun hm => hg.qNoHash (hq2sub _ hm)⟩
  have hparse2 := parse_recon hok
  have hrecon : reconUrl u =
      reconScheme u ++ lit ("://") ++ u.host ++ reconPath u ++ reconQuery u := rfl
  obtain ⟨hg1, hg2, hg3⟩ := scheme_toLower_good hg.schHead hg.schChars hg.schNoColon
  have hq2drop : '#' ∉ q2.drop 1 := by
    intro hm
    exact hg.qNoHash (hq2sub _ (List.mem_of_mem_drop hm))
  have hgood2 : UrlGood ⟨(reconScheme u).map Char.toLower, u.host, p2, q2.drop 1⟩ :=
    urlGood_mk hg1 hg2 hg3 hg.hostNoSlash hg.hostNoQm hg.hostNoHash hg.hostPort
      hp2shape (fun hm => hg.pathNoQm (hp2sub _ hm))
      (fun hm => hg.pathNoHash (hp2sub _ hm)) hq2drop
  refine ⟨⟨(reconScheme u).map Char.toLower, u.host, p2, q2.drop 1⟩, ?_, hgood2, rfl⟩
  unfold cleanUrl
  rw [hprep, hrecon, htrim, hparse2]
  dsimp only
  rw [if_neg (not_ne_iff.mpr hh)]

/-! ## Plumbing facts about the ProcessResponse pipeline -/

theorem processLoop_fst (status : Nat) (srcUrl : Str) (seed : Seed) (L : List Str) :
    (processLoop status srcUrl seed L).1 = L.map (fun l => (cleanUrl seed l).getD []) := by
  induction L with
  | nil => rfl
  | cons a t ih => simp [processLoop, ih]

theorem processLoop_snd (status : Nat) (srcUrl : Str) (seed : Seed) (L : List Str) :
    (processLoop status srcUrl seed L).2 = L.map (fun l => OutputRec.mk status srcUrl l) := by
  induction L with
  | nil => rfl
  | cons a t ih => simp [processLoop, ih]

theorem filteredLinksAux_facts (L : List Str) :
    ∀ (seen : List Str), (∀ x ∈ filteredLinksAux seen L, x ∈ L ∧ x ≠ []) ∧
      (filteredLinksAux seen L).Nodup ∧ (∀ x ∈ filteredLinksAux seen L, x ∉ seen) := by
  induction L with
  | nil => intro seen; simp [filteredLinksAux]
  | cons a t ih =>
    intro seen
    by_cases ha : a.length = 0
    · obtain ⟨h1, h2, h3⟩ := ih seen
      rw [filteredLinksAux, if_pos ha]
      exact ⟨fun x hx => ⟨List.mem_cons_of_mem _ (h1 x hx).1, (h1 x hx).2⟩, h2, h3⟩
    · by_cases hs : a ∈ seen
      · obtain ⟨h1, h2, h3⟩ := ih seen
        rw [filteredLinksAux, if_neg ha, if_pos hs]
        exact ⟨fun x hx => ⟨List.mem_cons_of_mem _ (h1 x hx).1, (h1 x hx).2⟩, h2, h3⟩
      · obtain ⟨h1, h2, h3⟩ := ih (a :: seen)
        rw [filteredLinksAux, if_neg ha, if_neg hs]
        have hane : a ≠ [] := fun he => ha (by rw [he]; rfl)
        refine ⟨?_, ?_, ?_⟩
        · intro x hx
          rcases List.mem_cons.mp hx with rfl | hx
          · exact ⟨List.mem_cons_self _ _, hane⟩
          · exact ⟨List.mem_cons_of_mem _ (h1 x hx).1, (h1 x hx).2⟩
        · rw [List.nodup_cons]
          exact ⟨fun hm => h3 a hm (List.mem_cons_self _ _), h2⟩
        · intro x hx
          rcases List.mem_cons.mp hx with rfl | hx
          · exact hs
          · exact fun hm => h3 x hx (List.mem_cons_of_mem _ hm)

theorem filteredLinks_facts (L : List Str) :
    (∀ x ∈ filteredLinks L, x ∈ L ∧ x ≠ []) ∧ (filteredLinks L).Nodup :=
  ⟨(filteredLinksAux_facts L []).1, (filteredLinksAux_facts L []).2.1⟩

/-- C4: every element of the WorkBatch a successful ProcessResponse returns
is a non-empty canonical URL whose parsed hostname equals the seed hostname.
Out-of-scope normalizer results (the empty string) are removed by
filteredLinks before the final cleanUrl pass, and that pass maps each
surviving in-scope canonical URL to an in-scope canonical URL again, so
neither empty strings nor foreign hosts can enter the batch. -/
theorem ProcessResponse_batch_in_domain {seed : Seed} (hsw : SeedWF seed)
    {status : Nat} {srcUrl contentType : Str} {hrefs : List Str}
    {found : List Str} {out : List OutputRec}
    (h : ProcessResponse seed status srcUrl contentType hrefs = some (found, out)) :
    ∀ x ∈ found, x ≠ [] ∧
      ∃ w : GoUrl, parseGoUrl x = some w ∧ hostname w.host = seed.host := by
  unfold ProcessResponse at h
  split at h
  · exact Option.noConfusion h
  · injection h with h
    have hfst := congrArg Prod.fst h
    rw [processLoop_fst] at hfst
    dsimp only at hfst
    intro x hx
    rw [← hfst] at hx
    rw [List.mem_map] at hx
    obtain ⟨l, hl, rfl⟩ := hx
    obtain ⟨hlmem, hlne⟩ := (filteredLinks_facts _).1 l hl
    unfold startFindLinks at hlmem
    rw [List.mem_filterMap] at hlmem
    obtain ⟨a, -, hclean⟩ := hlmem
    obtain ⟨u, hp, hh, rfl⟩ := cleanUrl_some_shape hclean hlne
    obtain ⟨hgood, hns, -, hhttp⟩ := urlGood_of_clean hsw hp hh
    obtain ⟨u2, hclean2, hgood2, hhost2⟩ := cleanUrl_of_good hgood hns hhttp hh
    rw [hclean2]
    simp only [Option.getD_some]
    refine ⟨reconUrl_ne u2, ⟨_, parse_reconUrl hgood2, ?_⟩⟩
    dsimp only
    rw [hhost2, hh]

/-- The hrefs of the C4 witness page: a relative link, a foreign-domain link
and a fragment. -/
def c4hrefs : List Str := [lit ("/a"), lit ("https://google.com"), lit ("#x")]

/-- The WorkBatch ProcessResponse returns for that page. -/
def c4found : List Str := [lit ("https://example.com/a"), lit ("https://example.com")]

/-- The Data records ProcessResponse emits for that page. -/
def c4out : List OutputRec :=
  [⟨200, lit ("https://example.com"), lit ("https://example.com/a")⟩,
   ⟨200, lit ("https://example.com"), lit ("https://example.com")⟩]

/-- Witness for ProcessResponse_batch_in_domain at a concrete page. -/
theorem ProcessResponse_batch_in_domain_witness :
    SeedWF seedEx ∧
    ProcessResponse seedEx 200 (lit ("https://example.com")) (lit ("text/html")) c4hrefs =
      some (c4found, c4out) ∧
    (∀ x ∈ c4found, x ≠ [] ∧
      ∃ w : GoUrl, parseGoUrl x = some w ∧ hostname w.host = seedEx.host) :=
  ⟨⟨by decide, by decide⟩, by decide,
   @ProcessResponse_batch_in_domain seedEx ⟨by decide, by decide⟩ 200
     (lit ("https://example.com")) (lit ("text/html")) c4hrefs c4found c4out (by decide)⟩

/-! ## Helpers for scheme-less and https-prefixed host inputs -/

theorem trimLeft_eq_self {s : Str} (h : ∀ c ∈ s, isSpaceChar c = false) :
    trimLeft s = s := by
  cases s with
  | nil => rfl
  | cons c t => exact trimLeft_cons (h c (List.mem_cons_self _ _))

theorem strTrim_eq_self {s : Str} (h : ∀ c ∈ s, isSpaceChar c = false) :
    strTrim s = s := by
  rw [strTrim, trimLeft_eq_self h, trimRight_eq_self h]

theorem parseHost_no_colon {h : Str} (hc : ':' ∉ h) : parseHost h = some h := by
  unfold parseHost
  rw [splitLastColon_none hc]

theorem hostname_no_colon {h : Str} (hc : ':' ∉ h) : hostname h = h := by
  unfold hostname
  rw [splitLastColon_none hc]

theorem seed_host_facts {seed : Seed} (hsw : SeedWF seed) :
    '/' ∉ seed.host ∧ '?' ∉ seed.host ∧ '#' ∉ seed.host ∧ ':' ∉ seed.host ∧
    (∀ c ∈ seed.host, isSpaceChar c = false) := by
  refine ⟨?_, ?_, ?_, ?_, ?_⟩
  · exact fun hm => (goodHostChar_facts (hsw.hostChars _ hm)).1 rfl
  · exact fun hm => (goodHostChar_facts (hsw.hostChars _ hm)).2.1 rfl
  · exact fun hm => (goodHostChar_facts (hsw.hostChars _ hm)).2.2.1 rfl
  · exact fun hm => (goodHostChar_facts (hsw.hostChars _ hm)).2.2.2.1 rfl
  · exact fun c hc => (goodHostChar_facts (hsw.hostChars c hc)).2.2.2.2

/-- A character allowed in the path part of the structured inputs below:
anything except a hash, a question mark, and whitespace. -/
def goodPathChar (c : Char) : Bool := !(c == '#' || c == '?' || isSpaceChar c)

/-- A character allowed in the query part: anything except a hash and
whitespace. -/
def goodQueryChar (c : Char) : Bool := !(c == '#' || isSpaceChar c)

theorem goodPathChar_facts {c : Char} (h : goodPathChar c = true) :
    c ≠ '#' ∧ c ≠ '?' ∧ isSpaceChar c = false := by
  unfold goodPathChar at h
  simp only [Bool.not_eq_true', Bool.or_eq_false_iff, beq_eq_false_iff_ne, ne_eq] at h
  exact ⟨h.1.1, h.1.2, h.2⟩

theorem goodQueryChar_facts {c : Char} (h : goodQueryChar c = true) :
    c ≠ '#' ∧ isSpaceChar c = false := by
  unfold goodQueryChar at h
  simp only [Bool.not_eq_true', Bool.or_eq_false_iff, beq_eq_false_iff_ne, ne_eq] at h
  exact ⟨h.1, h.2⟩

/-- Path/query well-formedness bundle used by the structured-input results. -/
structure PQWF (p q : Str) : Prop where
  pShape : p = [] ∨ ∃ t, p = '/' :: t
  qShape : q = [] ∨ ∃ t, q = '?' :: t
  pChars : ∀ c ∈ p, goodPathChar c = true
  qChars : ∀ c ∈ q.drop 1, goodQueryChar c = true

theorem pqwf_facts {p q : Str} (hpq : PQWF p q) :
    '#' ∉ p ∧ '?' ∉ p ∧ (∀ c ∈ p, isSpaceChar c = false) ∧
    '#' ∉ q ∧ (∀ c ∈ q, isSpaceChar c = false) := by
  have hq : '#' ∉ q ∧ ∀ c ∈ q, isSpaceChar c = false := by
    rcases hpq.qShape with rfl | ⟨qt, rfl⟩
    · simp
    · have hqt : ∀ c ∈ qt, c ≠ '#' ∧ isSpaceChar c = false := by
        intro c hc
        exact ⟨(goodQueryChar_facts (hpq.qChars c hc)).1,
               (goodQueryChar_facts (hpq.qChars c hc)).2⟩
      constructor
      · intro hm
        rcases List.mem_cons.mp hm with hm | hm
        · exact absurd hm (by decide)
        · exact (hqt _ hm).1 rfl
      · intro c hc
        rcases List.mem_cons.mp hc with rfl | hc
        · decide
        · exact (hqt c hc).2
  refine ⟨?_, ?_, ?_, hq.1, hq.2⟩
  · exact fun hm => (goodPathChar_facts (hpq.pChars _ hm)).1 rfl
  · exact fun hm => (goodPathChar_facts (hpq.pChars _ hm)).2.1 rfl
  · exact fun c hc => (goodPathChar_facts (hpq.pChars c hc)).2.2

/-- cleanUrl on "https://" ++ seedhost ++ path ++ query with well-formed
parts: the string parses to exactly those components and is reconstructed. -/
theorem cleanUrl_https_core {seed : Seed} (hsw : SeedWF seed)
    {p q : Str} (hpq : PQWF p q) :
    cleanUrl seed (lit ("https://") ++ seed.host ++ p ++ q) =
      some (reconUrl ⟨lit ("https"), seed.host, p, q.drop 1⟩) := by
  obtain ⟨hsl, hqm, hhash, hcol, hns⟩ := seed_host_facts hsw
  obtain ⟨hph, hpqm, hpns, hqh, hqns⟩ := pqwf_facts hpq
  have hshape : lit ("https://") ++ seed.host ++ p ++ q =
      lit ("https") ++ lit ("://") ++ seed.host ++ p ++ q := by
    simp [lit]
  have hallns : ∀ c ∈ lit ("https://") ++ seed.host ++ p ++ q, isSpaceChar c = false := by
    intro c hc
    simp only [List.mem_append] at hc
    rcases hc with ((hc | hc) | hc) | hc
    · have hl : lit ("https://") = ['h', 't', 't', 'p', 's', ':', '/', '/'] := rfl
      rw [hl] at hc
      simp only [List.mem_cons, List.not_mem_nil, or_false] at hc
      rcases hc with rfl | rfl | rfl | rfl | rfl | rfl | rfl | rfl <;> decide
    · exact hns c hc
    · exact hpns c hc
    · exact hqns c hc
  have hstart : strStarts (lit ("https://") ++ seed.host ++ p ++ q) (lit ("http")) = true := by
    have he : lit ("https://") ++ seed.host ++ p ++ q =
        lit ("http") ++ (lit ("s://") ++ (seed.host ++ (p ++ q))) := by
      simp [lit]
    rw [he]
    exact strStarts_append _ _
  have hprep : prepStages seed (lit ("https://") ++ seed.host ++ p ++ q) =
      lit ("https://") ++ seed.host ++ p ++ q := by
    rw [prepStages_id_of_http hstart, strTrim_eq_self hallns]
  have hok : ReconOk (lit ("https")) seed.host p q :=
    ⟨⟨'h', ['t', 't', 'p', 's'], rfl, by decide⟩, by decide, by decide,
     hsl, hqm, hhash, parseHost_no_colon hcol, hpq.pShape, hpqm, hph, hpq.qShape, hqh⟩
  have hparse := parse_recon hok
  unfold cleanUrl
  rw [hprep, hshape, hparse]
  dsimp only
  rw [hostname_no_colon hcol, if_neg (not_ne_iff.mpr rfl)]
  have hmap : (lit ("https")).map Char.toLower = lit ("https") := by decide
  rw [hmap]

theorem fragStage_cons {seed : Seed} {c : Char} {t : Str} (hc : c ≠ '#') :
    fragStage seed (c :: t) = c :: t := by
  unfold fragStage
  have hl : lit ("#") = ['#'] := rfl
  have hss : strStarts (c :: t) (lit ("#")) = false := by
    rw [hl]
    simp [strStarts, hc]
  rw [hss]
  simp

theorem relStage_cons {seed : Seed} {c : Char} {t : Str} (hc : c ≠ '/') :
    relStage seed (c :: t) = c :: t := by
  unfold relStage
  have hl : lit ("/") = ['/'] := rfl
  have hss : strStarts (c :: t) (lit ("/")) = false := by
    rw [hl]
    simp [strStarts, hc]
  rw [hss]
  simp

theorem loopbackStage_no127 {s : Str} (h : strContains s (lit ("127.0.0.1")) = false) :
    loopbackStage s = s := by
  unfold loopbackStage
  rw [h]
  simp

theorem loopbackStage_127 {s : Str} (h : strContains s (lit ("127.0.0.1")) = true)
    (hh : strStarts s (lit ("http")) = false) :
    loopbackStage s = lit ("http://") ++ s := by
  unfold loopbackStage
  rw [h, hh]
  simp

theorem schemeStage_not_http {s : Str} (h : strStarts s (lit ("http")) = false) :
    schemeStage s = lit ("https://") ++ s := by
  unfold schemeStage
  rw [h]
  simp

theorem schemeStage_http {s : Str} (h : strStarts s (lit ("http")) = true) :
    schemeStage s = s := by
  unfold schemeStage
  rw [h]
  simp

/-- cleanUrl on a scheme-less seedhost ++ path ++ query equals cleanUrl on
the same string with "https://" prepended, when the string does not contain
"127.0.0.1" and does not start with "http". -/
theorem cleanUrl_missing_scheme {seed : Seed} (hsw : SeedWF seed)
    {p q : Str} (hpq : PQWF p q)
    (h127 : strContains (seed.host ++ p ++ q) (lit ("127.0.0.1")) = false)
    (hhttp : strStarts (seed.host ++ p ++ q) (lit ("http")) = false) :
    cleanUrl seed (seed.host ++ p ++ q) =
      cleanUrl seed (lit ("https://") ++ seed.host ++ p ++ q) := by
  obtain ⟨hsl, hqm, hhash, hcol, hns⟩ := seed_host_facts hsw
  obtain ⟨hph, hpqm, hpns, hqh, hqns⟩ := pqwf_facts hpq
  have hallns : ∀ c ∈ seed.host ++ p ++ q, isSpaceChar c = false := by
    intro c hc
    simp only [List.mem_append] at hc
    rcases hc with (hc | hc) | hc
    · exact hns c hc
    · exact hpns c hc
    · exact hqns c hc
  obtain ⟨h0, ht, hhost, hgood⟩ : ∃ h0 ht, seed.host = h0 :: ht ∧ goodHostChar h0 = true := by
    cases hh : seed.host with
    | nil => exact absurd hh hsw.hostNe
    | cons a t => exact ⟨a, t, rfl, hsw.hostChars a (by rw [hh]; exact List.mem_cons_self _ _)⟩
  have hS : seed.host ++ p ++ q = h0 :: (ht ++ p ++ q) := by
    rw [hhost]
    simp
  have hgf := goodHostChar_facts hgood
  have hprepL : prepStages seed (seed.host ++ p ++ q) =
      lit ("https://") ++ (seed.host ++ p ++ q) := by
    unfold prepStages
    rw [strTrim_eq_self hallns, hS, fragStage_cons (hgf.2.2.1), relStage_cons (hgf.1),
      ← hS, loopbackStage_no127 h127, schemeStage_not_http hhttp]
  have hstartR : strStarts (lit ("https://") ++ seed.host ++ p ++ q) (lit ("http")) = true := by
    have he : lit ("https://") ++ seed.host ++ p ++ q =
        lit ("http") ++ (lit ("s://") ++ (seed.host ++ (p ++ q))) := by
      simp [lit]
    rw [he]
    exact strStarts_append _ _
  have hallnsR : ∀ c ∈ lit ("https://") ++ seed.host ++ p ++ q, isSpaceChar c = false := by
    intro c hc
    simp only [List.mem_append] at hc
    rcases hc with ((hc | hc) | hc) | hc
    · have hl : lit ("https://") = ['h', 't', 't', 'p', 's', ':', '/', '/'] := rfl
      rw [hl] at hc
      simp only [List.mem_cons, List.not_mem_nil, or_false] at hc
      rcases hc with rfl | rfl | rfl | rfl | rfl | rfl | rfl | rfl <;> decide
    · exact hns c hc
    · exact hpns c hc
    · exact hqns c hc
  have hprepR : prepStages seed (lit ("https://") ++ seed.host ++ p ++ q) =
      lit ("https://") ++ seed.host ++ p ++ q :=
    by rw [prepStages_id_of_http hstartR, strTrim_eq_self hallnsR]
  unfold cleanUrl
  rw [hprepL, hprepR]
  have hassoc : lit ("https://") ++ (seed.host ++ p ++ q) =
      lit ("https://") ++ seed.host ++ p ++ q := by
    simp
  rw [hassoc]

/-- cleanUrl on "http://" ++ seedhost ++ path ++ query with well-formed
parts. -/
theorem cleanUrl_http_core {seed : Seed} (hsw : SeedWF seed)
    {p q : Str} (hpq : PQWF p q) :
    cleanUrl seed (lit ("http://") ++ seed.host ++ p ++ q) =
      some (reconUrl ⟨lit ("http"), seed.host, p, q.drop 1⟩) := by
  obtain ⟨hsl, hqm, hhash, hcol, hns⟩ := seed_host_facts hsw
  obtain ⟨hph, hpqm, hpns, hqh, hqns⟩ := pqwf_facts hpq
  have hshape : lit ("http://") ++ seed.host ++ p ++ q =
      lit ("http") ++ lit ("://") ++ seed.host ++ p ++ q := by
    simp [lit]
  have hallns : ∀ c ∈ lit ("http://") ++ seed.host ++ p ++ q, isSpaceChar c = false := by
    intro c hc
    simp only [List.mem_append] at hc
    rcases hc with ((hc | hc) | hc) | hc
    · have hl : lit ("http://") = ['h', 't', 't', 'p', ':', '/', '/'] := rfl
      rw [hl] at hc
      simp only [List.mem_cons, List.not_mem_nil, or_false] at hc
      rcases hc with rfl | rfl | rfl | rfl | rfl | rfl | rfl <;> decide
    · exact hns c hc
    · exact hpns c hc
    · exact hqns c hc
  have hstart : strStarts (lit ("http://") ++ seed.host ++ p ++ q) (lit ("http")) = true := by
    have he : lit ("http://") ++ seed.host ++ p ++ q =
        lit ("http") ++ (lit ("://") ++ (seed.host ++ (p ++ q))) := by
      simp [lit]
    rw [he]
    exact strStarts_append _ _
  have hprep : prepStages seed (lit ("http://") ++ seed.host ++ p ++ q) =
      lit ("http://") ++ seed.host ++ p ++ q := by
    rw [prepStages_id_of_http hstart, strTrim_eq_self hallns]
  have hok : ReconOk (lit ("http")) seed.host p q :=
    ⟨⟨'h', ['t', 't', 'p'], rfl, by decide⟩, by decide, by decide,
     hsl, hqm, hhash, parseHost_no_colon hcol, hpq.pShape, hpqm, hph, hpq.qShape, hqh⟩
  have hparse := parse_recon hok
  unfold cleanUrl
  rw [hprep, hshape, hparse]
  dsimp only
  rw [hostname_no_colon hcol, if_neg (not_ne_iff.mpr rfl)]
  have hmap : (lit ("http")).map Char.toLower = lit ("http") := by decide
  rw [hmap]

/-- C9 counterexample: with seed https://example.com, the href
"example.com/x?ip=127.0.0.1" — whose target host is example.com and which
merely mentions 127.0.0.1 in a query parameter — is normalized with the
http:// default, not https:// as the claim requires: the loopback test of
cleanUrl is strings.Contains over the whole string. -/
theorem cleanUrl_loopback_query_cex :
    cleanUrl seedEx (lit ("example.com/x?ip=127.0.0.1")) =
      some (lit ("http://example.com/x?ip=127.0.0.1")) ∧
    lit ("http://example.com/x?ip=127.0.0.1") ≠ lit ("https://example.com/x?ip=127.0.0.1") := by
  decide

/-- C9 (amended): after trimming and fragment/relative resolution, a string
of the form seedhost ++ path ++ query that does not itself start with the
literal "http" gets "http://" prepended exactly when "127.0.0.1" occurs as a
substring ANYWHERE in it (host, path or query — not only as the target
host), and "https://" otherwise; with a well-formed seed and parts the
normalizer then returns the canonical URL with that scheme. -/
theorem cleanUrl_loopback_by_substring {seed : Seed} (hsw : SeedWF seed)
    {p q : Str} (hpq : PQWF p q)
    (hhttp : strStarts (seed.host ++ p ++ q) (lit ("http")) = false) :
    (strContains (seed.host ++ p ++ q) (lit ("127.0.0.1")) = true →
      cleanUrl seed (seed.host ++ p ++ q) =
        some (reconUrl ⟨lit ("http"), seed.host, p, q.drop 1⟩)) ∧
    (strContains (seed.host ++ p ++ q) (lit ("127.0.0.1")) = false →
      cleanUrl seed (seed.host ++ p ++ q) =
        some (reconUrl ⟨lit ("https"), seed.host, p, q.drop 1⟩)) := by
  obtain ⟨hsl, hqm, hhash, hcol, hns⟩ := seed_host_facts hsw
  obtain ⟨hph, hpqm, hpns, hqh, hqns⟩ := pqwf_facts hpq
  have hallns : ∀ c ∈ seed.host ++ p ++ q, isSpaceChar c = false := by
    intro c hc
    simp only [List.mem_append] at hc
    rcases hc with (hc | hc) | hc
    · exact hns c hc
    · exact hpns c hc
    · exact hqns c hc
  obtain ⟨h0, ht, hhost, hgood⟩ : ∃ h0 ht, seed.host = h0 :: ht ∧ goodHostChar h0 = true := by
    cases hh : seed.host with
    | nil => exact absurd hh hsw.hostNe
    | cons a t => exact ⟨a, t, rfl, hsw.hostChars a (by rw [hh]; exact List.mem_cons_self _ _)⟩
  have hS : seed.host ++ p ++ q = h0 :: (ht ++ p ++ q) := by
    rw [hhost]
    simp
  have hgf := goodHostChar_facts hgood
  constructor
  · intro h127
    have hprepL : prepStages seed (seed.host ++ p ++ q) =
        lit ("http://") ++ (seed.host ++ p ++ q) := by
      unfold prepStages
      rw [strTrim_eq_self hallns, hS, fragStage_cons (hgf.2.2.1), relStage_cons (hgf.1),
        ← hS, loopbackStage_127 h127 hhttp]
      apply schemeStage_http
      have he : lit ("http://") ++ (seed.host ++ p ++ q) =
          lit ("http") ++ (lit ("://") ++ (seed.host ++ p ++ q)) := by
        simp [lit]
      rw [he]
      exact strStarts_append _ _
    have hcore := cleanUrl_http_core hsw hpq
    have hassoc : lit ("http://") ++ (seed.host ++ p ++ q) =
        lit ("http://") ++ seed.host ++ p ++ q := by
      simp
    unfold cleanUrl at hcore ⊢
    rw [hprepL, hassoc]
    rw [prepStages_id_of_http (by
      have he : lit ("http://") ++ seed.host ++ p ++ q =
          lit ("http") ++ (lit ("://") ++ (seed.host ++ (p ++ q))) := by
        simp [lit]
      rw [he]
      exact strStarts_append _ _), strTrim_eq_self (by
        intro c hc
        simp only [List.mem_append] at hc
        rcases hc with ((hc | hc) | hc) | hc
        · have hl : lit ("http://") = ['h', 't', 't', 'p', ':', '/', '/'] := rfl
          rw [hl] at hc
          simp only [List.mem_cons, List.not_mem_nil, or_false] at hc
          rcases hc with rfl | rfl | rfl | rfl | rfl | rfl | rfl <;> decide
        · exact hns c hc
        · exact hpns c hc
        · exact hqns c hc)] at hcore
    exact hcore
  · intro h127
    exact (cleanUrl_missing_scheme hsw hpq h127 hhttp).trans (cleanUrl_https_core hsw hpq)

/-- Witness for cleanUrl_loopback_by_substring: seed example.com, path /x,
query ?ip=127.0.0.1 (loopback in the query only) and query ?ip=10.0.0.1. -/
theorem cleanUrl_loopback_by_substring_witness :
    (SeedWF seedEx ∧ PQWF (lit ("/x")) (lit ("?ip=127.0.0.1")) ∧
      strStarts (seedEx.host ++ lit ("/x") ++ lit ("?ip=127.0.0.1")) (lit ("http")) = false ∧
      strContains (seedEx.host ++ lit ("/x") ++ lit ("?ip=127.0.0.1")) (lit ("127.0.0.1")) = true ∧
      cleanUrl seedEx (seedEx.host ++ lit ("/x") ++ lit ("?ip=127.0.0.1")) =
        some (reconUrl ⟨lit ("http"), seedEx.host, lit ("/x"), (lit ("?ip=127.0.0.1")).drop 1⟩)) ∧
    (strContains (seedEx.host ++ lit ("/x") ++ lit ("?ip=10.0.0.1")) (lit ("127.0.0.1")) = false ∧
      cleanUrl seedEx (seedEx.host ++ lit ("/x") ++ lit ("?ip=10.0.0.1")) =
        some (reconUrl ⟨lit ("https"), seedEx.host, lit ("/x"), (lit ("?ip=10.0.0.1")).drop 1⟩)) :=
  ⟨⟨⟨by decide, by decide⟩,
    ⟨Or.inr ⟨lit ("x"), by decide⟩, Or.inr ⟨lit ("ip=127.0.0.1"), by decide⟩,
      by decide, by decide⟩, by decide, by decide,
    (cleanUrl_loopback_by_substring ⟨by decide, by decide⟩
      ⟨Or.inr ⟨lit ("x"), by decide⟩, Or.inr ⟨lit ("ip=127.0.0.1"), by decide⟩,
        by decide, by decide⟩ (by decide)).1 (by decide)⟩,
   by decide,
   (cleanUrl_loopback_by_substring ⟨by decide, by decide⟩
      ⟨Or.inr ⟨lit ("x"), by decide⟩, Or.inr ⟨lit ("ip=10.0.0.1"), by decide⟩,
        by decide, by decide⟩ (by decide)).2 (by decide)⟩

/-- url.Parse depends only on the part before the first hash: the fragment
is cut off first. -/
theorem parseGoUrl_hash {base f : Str} (h : '#' ∉ base) :
    parseGoUrl (base ++ '#' :: f) = parseGoUrl base := by
  unfold parseGoUrl
  rw [cutFirst_append h, cutFirst_not_mem h]

/-- cleanUrl ignores an appended fragment on an absolute http/https URL
with no spaces and no hash of its own. -/
theorem cleanUrl_fragment {seed : Seed} {base f : Str}
    (hb : strStarts base (lit ("http")) = true)
    (hhash : '#' ∉ base)
    (hns : ∀ c ∈ base, isSpaceChar c = false)
    (hnsf : ∀ c ∈ f, isSpaceChar c = false) :
    cleanUrl seed (base ++ '#' :: f) = cleanUrl seed base := by
  obtain ⟨r, hr⟩ := strStarts_iff.mp hb
  have hbf : strStarts (base ++ '#' :: f) (lit ("http")) = true := by
    rw [hr, List.append_assoc]
    exact strStarts_append _ _
  have hnsbf : ∀ c ∈ base ++ '#' :: f, isSpaceChar c = false := by
    intro c hc
    rcases List.mem_append.mp hc with hc | hc
    · exact hns c hc
    · rcases List.mem_cons.mp hc with rfl | hc
      · decide
      · exact hnsf c hc
  unfold cleanUrl
  rw [prepStages_id_of_http hbf, prepStages_id_of_http hb,
    strTrim_eq_self hnsbf, strTrim_eq_self hns, parseGoUrl_hash hhash]

/-- reconUrl of a bare or slash-only https path: the path is dropped. -/
theorem reconUrl_bare (host p : Str) (hp : p = [] ∨ p = ['/']) :
    reconUrl ⟨lit ("https"), host, p, []⟩ = lit ("https://") ++ host := by
  have hsch : reconScheme ⟨lit ("https"), host, p, []⟩ = lit ("https") := by
    unfold reconScheme
    rw [if_neg (by decide : ¬(lit ("https") = ([] : Str)))]
  have hq : reconQuery ⟨lit ("https"), host, p, []⟩ = [] := by
    unfold reconQuery
    rw [if_neg (by simp)]
  have hp2 : reconPath ⟨lit ("https"), host, p, []⟩ = [] := by
    unfold reconPath
    rcases hp with rfl | rfl
    · rw [if_neg (by simp)]
    · rw [if_neg (by simp)]
  unfold reconUrl
  rw [hsch, hp2, hq, List.append_nil, List.append_nil]
  have hl : lit ("https") ++ lit ("://") = lit ("https://") := by decide
  rw [hl]

/-- reconUrl of a non-bare https path with empty query: the path is kept
verbatim, trailing slash included. -/
theorem reconUrl_path (host p : Str) (hne : p ≠ []) (hne2 : p ≠ ['/']) :
    reconUrl ⟨lit ("https"), host, p, []⟩ = lit ("https://") ++ host ++ p := by
  have hsch : reconScheme ⟨lit ("https"), host, p, []⟩ = lit ("https") := by
    unfold reconScheme
    rw [if_neg (by decide : ¬(lit ("https") = ([] : Str)))]
  have hq : reconQuery ⟨lit ("https"), host, p, []⟩ = [] := by
    unfold reconQuery
    rw [if_neg (by simp)]
  have hp2 : reconPath ⟨lit ("https"), host, p, []⟩ = p := by
    unfold reconPath
    rw [if_pos ⟨hne, hne2⟩]
  unfold reconUrl
  rw [hsch, hp2, hq, List.append_nil]
  have hl : lit ("https") ++ lit ("://") = lit ("https://") := by decide
  rw [hl]

/-- C8 counterexample: the in-domain href "example.com/path" and the same
href with a single trailing slash appended normalize to DIFFERENT canonical
strings — cleanUrl keeps a trailing slash on any non-bare path, so the
claimed slash-insensitivity and the no-trailing-slash canonical form both
fail. -/
theorem cleanUrl_trailing_slash_cex :
    cleanUrl seedEx (lit ("example.com/path")) = some (lit ("https://example.com/path")) ∧
    cleanUrl seedEx (lit ("example.com/path/")) = some (lit ("https://example.com/path/")) ∧
    cleanUrl seedEx (lit ("example.com/path")) ≠ cleanUrl seedEx (lit ("example.com/path/")) := by
  decide

/-- C8 (amended): the normalizer identifies two of the three claimed
equivalences and collapses a trailing slash only on the BARE host.  With a
well-formed loopback-free seed and a well-formed scheme-less suffix p ++ q:
(1) the bare host and the bare host with a trailing slash both normalize to
the canonical scheme://host with no slash; (2) a missing scheme is
invisible: the scheme-less string and its https:// completion normalize
alike; (3) an appended space-free fragment is invisible on an absolute URL;
but (4) on any non-bare path the trailing slash is KEPT, so appending a
slash to such an input changes the canonical result — the claimed universal
trailing-slash insensitivity and trailing-slash-free canonical form hold
only at the bare host. -/
theorem cleanUrl_equivalence_classes {seed : Seed} (hsw : SeedWF seed)
    (h127h : strContains seed.host (lit ("127.0.0.1")) = false)
    (h127s : strContains (seed.host ++ ['/']) (lit ("127.0.0.1")) = false)
    (hhth : strStarts seed.host (lit ("http")) = false)
    (hhts : strStarts (seed.host ++ ['/']) (lit ("http")) = false)
    {p q : Str} (hpq : PQWF p q)
    (h127pq : strContains (seed.host ++ p ++ q) (lit ("127.0.0.1")) = false)
    (hhtpq : strStarts (seed.host ++ p ++ q) (lit ("http")) = false)
    {f : Str} (hf : ∀ c ∈ f, isSpaceChar c = false) :
    (cleanUrl seed seed.host = some (lit ("https://") ++ seed.host) ∧
     cleanUrl seed (seed.host ++ ['/']) = some (lit ("https://") ++ seed.host)) ∧
    (cleanUrl seed (seed.host ++ p ++ q) =
      cleanUrl seed (lit ("https://") ++ seed.host ++ p ++ q)) ∧
    (cleanUrl seed (lit ("https://") ++ seed.host ++ p ++ q ++ '#' :: f) =
      cleanUrl seed (lit ("https://") ++ seed.host ++ p ++ q)) ∧
    (∀ c0 t, p = '/' :: c0 :: t → q = [] →
      cleanUrl seed (lit ("https://") ++ seed.host ++ p) =
        some (lit ("https://") ++ seed.host ++ p) ∧
      cleanUrl seed (lit ("https://") ++ seed.host ++ (p ++ ['/'])) =
        some (lit ("https://") ++ seed.host ++ (p ++ ['/'])) ∧
      cleanUrl seed (lit ("https://") ++ seed.host ++ p) ≠
        cleanUrl seed (lit ("https://") ++ seed.host ++ (p ++ ['/']))) := by
  obtain ⟨hsl, hqm, hhash, hcol, hns⟩ := seed_host_facts hsw
  obtain ⟨hph, hpqm, hpns, hqh, hqns⟩ := pqwf_facts hpq
  have hpq0 : PQWF ([] : Str) [] := ⟨Or.inl rfl, Or.inl rfl, by simp, by simp⟩
  have hpqS : PQWF (['/'] : Str) [] :=
    ⟨Or.inr ⟨[], rfl⟩, Or.inl rfl, by decide, by simp⟩
  refine ⟨⟨?_, ?_⟩, ?_, ?_, ?_⟩
  · have h1 := cleanUrl_missing_scheme hsw hpq0
      (by simpa using h127h) (by simpa using hhth)
    have h2 := cleanUrl_https_core hsw hpq0
    simp only [List.append_nil, List.drop_nil] at h1 h2
    rw [h1, h2, reconUrl_bare seed.host _ (Or.inl rfl)]
  · have h1 := cleanUrl_missing_scheme hsw hpqS
      (by simpa using h127s) (by simpa using hhts)
    have h2 := cleanUrl_https_core hsw hpqS
    simp only [List.append_nil, List.drop_nil] at h1 h2
    rw [h1, h2, reconUrl_bare seed.host _ (Or.inr rfl)]
  · exact cleanUrl_missing_scheme hsw hpq h127pq hhtpq
  · apply cleanUrl_fragment
    · have he : lit ("https://") ++ seed.host ++ p ++ q =
          lit ("http") ++ (lit ("s://") ++ (seed.host ++ (p ++ q))) := by
        simp [lit]
      rw [he]
      exact strStarts_append _ _
    · intro hm
      simp only [List.mem_append] at hm
      rcases hm with ((hm | hm) | hm) | hm
      · exact absurd hm (by decide)
      · exact hhash hm
      · exact hph hm
      · exact hqh hm
    · intro c hc
      simp only [List.mem_append] at hc
      rcases hc with ((hc | hc) | hc) | hc
      · have hl : lit ("https://") = ['h', 't', 't', 'p', 's', ':', '/', '/'] := rfl
        rw [hl] at hc
        simp only [List.mem_cons, List.not_mem_nil, or_false] at hc
        rcases hc with rfl | rfl | rfl | rfl | rfl | rfl | rfl | rfl <;> decide
      · exact hns c hc
      · exact hpns c hc
      · exact hqns c hc
    · exact hf
  · intro c0 t hp4 hq4
    subst hq4
    have hpqP : PQWF p [] := ⟨hpq.pShape, Or.inl rfl, hpq.pChars, by simp⟩
    have hpqPS : PQWF (p ++ ['/']) [] := by
      refine ⟨?_, Or.inl rfl, ?_, by simp⟩
      · exact Or.inr ⟨c0 :: t ++ ['/'], by rw [hp4]; rfl⟩
      · intro c hc
        rcases List.mem_append.mp hc with hc | hc
        · exact hpq.pChars c hc
        · rcases List.mem_cons.mp hc with rfl | hc
          · decide
          · exact absurd hc (List.not_mem_nil c)
    have h2 := cleanUrl_https_core hsw hpqP
    have h3 := cleanUrl_https_core hsw hpqPS
    simp only [List.append_nil, List.drop_nil] at h2 h3
    have hne1 : p ≠ [] := by rw [hp4]; simp
    have hne2 : p ≠ ['/'] := by rw [hp4]; simp
    have hne3 : p ++ ['/'] ≠ [] := by simp
    have hne4 : p ++ ['/'] ≠ ['/'] := by
      rw [hp4]
      intro h
      exact absurd (congrArg List.length h) (by simp)
    rw [reconUrl_path seed.host p hne1 hne2] at h2
    rw [reconUrl_path seed.host (p ++ ['/']) hne3 hne4] at h3
    refine ⟨h2, h3, ?_⟩
    rw [h2, h3]
    intro h
    rw [Option.some.injEq] at h
    have hlen := congrArg List.length h
    simp only [List.length_append, List.length_cons, List.length_nil] at hlen
    omega

/-- Witness for cleanUrl_equivalence_classes: seed example.com, p = "/a",
q = "?b", fragment "frag". -/
theorem cleanUrl_equivalence_classes_witness :
    (SeedWF seedEx ∧ PQWF (lit ("/a")) (lit ("?b")) ∧
      strContains (seedEx.host ++ lit ("/a") ++ lit ("?b")) (lit ("127.0.0.1")) = false ∧
      strStarts (seedEx.host ++ lit ("/a") ++ lit ("?b")) (lit ("http")) = false) ∧
    ((cleanUrl seedEx seedEx.host = some (lit ("https://") ++ seedEx.host) ∧
      cleanUrl seedEx (seedEx.host ++ ['/']) = some (lit ("https://") ++ seedEx.host)) ∧
     (cleanUrl seedEx (seedEx.host ++ lit ("/a") ++ lit ("?b")) =
       cleanUrl seedEx (lit ("https://") ++ seedEx.host ++ lit ("/a") ++ lit ("?b"))) ∧
     (cleanUrl seedEx (lit ("https://") ++ seedEx.host ++ lit ("/a") ++ lit ("?b") ++
         '#' :: lit ("frag")) =
       cleanUrl seedEx (lit ("https://") ++ seedEx.host ++ lit ("/a") ++ lit ("?b")))) :=
  ⟨⟨⟨by decide, by decide⟩,
    ⟨Or.inr ⟨lit ("a"), by decide⟩, Or.inr ⟨lit ("b"), by decide⟩, by decide, by decide⟩,
    by decide, by decide⟩,
   (by
    have h := @cleanUrl_equivalence_classes seedEx ⟨by decide, by decide⟩
      (by decide) (by decide) (by decide) (by decide) (lit ("/a")) (lit ("?b"))
      ⟨Or.inr ⟨lit ("a"), by decide⟩, Or.inr ⟨lit ("b"), by decide⟩, by decide, by decide⟩
      (by decide) (by decide) (lit ("frag")) (by decide)
    exact ⟨h.1, h.2.1, h.2.2.1⟩)⟩

/-- C5 counterexample: three pages refuting the claimed audit trail.  The
distinct non-empty raw href "https://google.com" is out-of-scope, yet the
page yields ZERO Data records — out-of-scope hrefs are dropped before the
output loop, not recorded.  The href "/a" yields a record carrying the
CLEANED link "https://example.com/a", not the raw href.  The two distinct
raw hrefs "example.com" and "example.com/" normalize to one canonical URL
and yield ONE record, because deduplication runs on the normalized list:
normalization comes first, dedup second, contrary to the claimed order. -/
theorem ProcessResponse_audit_trail_cex :
    ProcessResponse seedEx 200 (lit ("https://example.com")) (lit ("text/html"))
      [lit ("https://google.com")] = some ([], []) ∧
    ProcessResponse seedEx 200 (lit ("https://example.com")) (lit ("text/html"))
      [lit ("/a")] =
      some ([lit ("https://example.com/a")],
        [⟨200, lit ("https://example.com"), lit ("https://example.com/a")⟩]) ∧
    ProcessResponse seedEx 200 (lit ("https://example.com")) (lit ("text/html"))
      [lit ("example.com"), lit ("example.com/")] =
      some ([lit ("https://example.com")],
        [⟨200, lit ("https://example.com"), lit ("https://example.com")⟩]) := by
  decide

/-- C5 (amended): ProcessResponse normalizes FIRST (startFindLinks runs
cleanUrl on every raw href, dropping parse failures and keeping the empty
out-of-scope results) and deduplicates SECOND (filteredLinks removes empty
strings and duplicates from the CLEANED list, preserving first-occurrence
order); it then emits exactly one Data OutputRecord per distinct non-empty
CANONICAL link, carrying the cleaned link — not the raw href — so
out-of-scope and unparseable hrefs leave no record in the output stream. -/
theorem ProcessResponse_records_per_canonical {seed : Seed}
    {status : Nat} {srcUrl contentType : Str} {hrefs : List Str}
    {found : List Str} {out : List OutputRec}
    (h : ProcessResponse seed status srcUrl contentType hrefs = some (found, out)) :
    out = (filteredLinks (startFindLinks seed hrefs)).map
        (fun l => OutputRec.mk status srcUrl l) ∧
    out.length = (filteredLinks (startFindLinks seed hrefs)).length ∧
    (out.map (fun r => r.link)).Nodup ∧
    ∀ r ∈ out, r.status = status ∧ r.source = srcUrl ∧ r.link ≠ [] ∧
      ∃ href ∈ hrefs, cleanUrl seed href = some r.link := by
  unfold ProcessResponse at h
  split at h
  · exact Option.noConfusion h
  · injection h with h
    have hsnd := congrArg Prod.snd h
    rw [processLoop_snd] at hsnd
    dsimp only at hsnd
    have hlinks : out.map (fun r => r.link) = filteredLinks (startFindLinks seed hrefs) := by
      rw [← hsnd, List.map_map]
      have : ((fun r : OutputRec => r.link) ∘ fun l => OutputRec.mk status srcUrl l) =
          fun l => l := rfl
      rw [this]
      exact List.map_id' _
    refine ⟨hsnd.symm, ?_, ?_, ?_⟩
    · rw [← hsnd, List.length_map]
    · rw [hlinks]
      exact (filteredLinks_facts _).2
    · intro r hr
      rw [← hsnd, List.mem_map] at hr
      obtain ⟨l, hl, rfl⟩ := hr
      obtain ⟨hlmem, hlne⟩ := (filteredLinks_facts _).1 l hl
      unfold startFindLinks at hlmem
      rw [List.mem_filterMap] at hlmem
      obtain ⟨a, ha, hclean⟩ := hlmem
      exact ⟨rfl, rfl, hlne, a, ha, hclean⟩

/-- Witness for ProcessResponse_records_per_canonical on the page
["/a", "/a", "", "https://google.com"]: two copies of one in-scope href, an
empty href and an out-of-scope href produce exactly one record. -/
theorem ProcessResponse_records_per_canonical_witness :
    ProcessResponse seedEx 200 (lit ("https://example.com")) (lit ("text/html"))
      [lit ("/a"), lit ("/a"), [], lit ("https://google.com")] =
      some ([lit ("https://example.com/a")],
        [⟨200, lit ("https://example.com"), lit ("https://example.com/a")⟩]) ∧
    ([⟨200, lit ("https://example.com"), lit ("https://example.com/a")⟩] : List OutputRec) =
      (filteredLinks (startFindLinks seedEx
          [lit ("/a"), lit ("/a"), [], lit ("https://google.com")])).map
        (fun l => OutputRec.mk 200 (lit ("https://example.com")) l) ∧
    ∀ r ∈ ([⟨200, lit ("https://example.com"), lit ("https://example.com/a")⟩] :
        List OutputRec), r.status = 200 ∧ r.source = lit ("https://example.com") ∧
      r.link ≠ [] ∧ ∃ href ∈ [lit ("/a"), lit ("/a"), [], lit ("https://google.com")],
        cleanUrl seedEx href = some r.link :=
  ⟨by decide,
   (@ProcessResponse_records_per_canonical seedEx 200 (lit ("https://example.com"))
      (lit ("text/html")) [lit ("/a"), lit ("/a"), [], lit ("https://google.com")]
      [lit ("https://example.com/a")]
      [⟨200, lit ("https://example.com"), lit ("https://example.com/a")⟩] (by decide)).1,
   (@ProcessResponse_records_per_canonical seedEx 200 (lit ("https://example.com"))
      (lit ("text/html")) [lit ("/a"), lit ("/a"), [], lit ("https://google.com")]
      [lit ("https://example.com/a")]
      [⟨200, lit ("https://example.com"), lit ("https://example.com/a")⟩] (by decide)).2.2.2⟩
